import Mathlib

/-
Verification of the Xperf trace-processing pipeline.

The development shallowly embeds the core of the repository:
  * the tree data model and the node filter
    (src/Utils/Trace/Processor/TreeNode.py, src/Utils/Trace/BuildTreeV2.py,
     src/Utils/Trace/MultiThreadVersion.py),
  * the frame segmenter, the stack-discipline tree builder and the per-frame
    worker unit (src/Utils/Trace/MultiThreadVersion.py),
  * the batch scheduler with its reorder buffer, the streaming JSON writer and
    the performance tracker (src/Utils/Trace/MultiThreadVersion.py),
  * the interval-containment tree builder (src/Utils/Trace/BuildTree.py),
  * the two timer-name normalizers
    (src/Utils/Trace/Processor/DefaultProcessors.py and the copy in
     src/Utils/Trace/MultiThreadVersion.py).

Modelling conventions:
  * Python floats appear only in comparisons, never in arithmetic, so times and
    durations are embedded as `Int` (any linearly ordered field of constants
    would do the same work).
  * A worker exception (a row whose TimerId/StartTime/... fields fail to parse)
    is modelled by `Row.fields = none`; `Except Unit` marks the raising paths.
  * The strategy objects are function parameters: `tp` embeds
    `process_timer_name`, `pN` embeds `should_include_node`, `pF` embeds
    `should_include_frame`.  `process_node` and `process_frame` are the
    defaults, which return their argument unchanged (both default processor
    classes do), and `extract_metadata` is the Processor-package default, which
    returns the empty mapping, so nodes carry no metadata field.
  * The completion order of the worker futures within one batch
    (`as_completed`) is the only scheduling nondeterminism that reaches the
    scheduler; it is modelled by a parameter `sched : Nat → List ProcessedFrame
    → List ProcessedFrame` that permutes each submitted batch.
  * `frame_buffer` is a Python dict whose iteration order is only ever observed
    through `sorted(...)` and membership, so it is embedded as a key-sorted
    association list; dict assignment, `in`, and `del` are `insertSorted`,
    `lookupBuf`, `eraseBuf`.
-/

/-! Generic helpers shared by both embeddings. -/

/-- `frame_data_list[batch_start:batch_end]` for
`batch_start in range(0, total_frames, batch_size)`.  A zero step raises in
Python; the claims all assume `batch_size ≥ 1`. -/
def chunksF {α : Type} : Nat → Nat → List α → List (List α)
  | 0, _, _ => []
  | _ + 1, _, [] => []
  | fuel + 1, b, x :: xs => (x :: xs).take b :: chunksF fuel b ((x :: xs).drop b)

def chunks {α : Type} (b : Nat) (l : List α) : List (List α) :=
  if b = 0 then [] else chunksF l.length b l

/-- Stable insertion placing `x` after every element `y` with `le y x`:
extensionally Python's stable `sorted`. -/
def insertLe {α : Type} (le : α → α → Bool) (x : α) : List α → List α
  | [] => [x]
  | y :: ys => if le y x then y :: insertLe le x ys else x :: y :: ys

def pySorted {α : Type} (le : α → α → Bool) (l : List α) : List α :=
  l.foldl (fun acc x => insertLe le x acc) []

namespace Xperf

/-! ### Tree data model
`TreeNode.__init__` / `to_dict` (src/Utils/Trace/Processor/TreeNode.py and the
identical copy at src/Utils/Trace/MultiThreadVersion.py lines 16-43).
The `metadata` mapping is omitted: with the Processor-package default
`extract_metadata` it is always empty and `to_dict` drops it. -/

inductive TreeNode : Type where
  | mk (timerId : Int) (timerName : String) (startTime endTime duration : Int)
       (depth : Nat) (children : List TreeNode)

def TreeNode.children : TreeNode → List TreeNode
  | .mk _ _ _ _ _ _ cs => cs

def TreeNode.duration : TreeNode → Int
  | .mk _ _ _ _ dur _ _ => dur

/-- The node with its children list replaced (the effect of the assignment
`processed_root.children = filtered_children`). -/
def TreeNode.withChildren : TreeNode → List TreeNode → TreeNode
  | .mk a b c d e f _, cs => .mk a b c d e f cs

/-- The per-node data of a tree node, children stripped. -/
def TreeNode.dataOf : TreeNode → Int × String × Int × Int × Int × Nat
  | .mk a b c d e f _ => (a, b, c, d, e, f)

mutual

/-- `count_nodes_in_tree` (MultiThreadVersion.py lines 293-298, BuildTreeV2.py
lines 55-60). -/
def TreeNode.countNodes : TreeNode → Nat
  | .mk _ _ _ _ _ _ cs => 1 + countNodesList cs

def countNodesList : List TreeNode → Nat
  | [] => 0
  | t :: ts => t.countNodes + countNodesList ts

end

mutual

/-- `filter_tree_nodes` (BuildTreeV2.py lines 63-79, identical copy at
MultiThreadVersion.py lines 301-315) — its return value, with the default
`process_node`, which returns its argument.  `none` embeds Python `None`. -/
def filterTreeNodes (p : TreeNode → Bool) : TreeNode → Option TreeNode
  | .mk a b c d e f cs =>
    if p (.mk a b c d e f cs) then
      some (.mk a b c d e f (filterChildren p cs))
    else
      none

def filterChildren (p : TreeNode → Bool) : List TreeNode → List TreeNode
  | [] => []
  | c :: cs =>
    match filterTreeNodes p c with
    | some fc => fc :: filterChildren p cs
    | none => filterChildren p cs

end

/-- The state of the argument object after `filter_tree_nodes(root, proc)`
returns: with the default `process_node` the function mutates `root.children`
in place along every retained path (line 78 / line 314 assigns through the very
object it was handed), and leaves the object untouched when the root itself
fails inclusion (it returns before touching it). -/
def filterPost (p : TreeNode → Bool) : TreeNode → TreeNode
  | .mk a b c d e f cs =>
    if p (.mk a b c d e f cs) then
      .mk a b c d e f (filterChildren p cs)
    else
      .mk a b c d e f cs

/-- `n` is a node of the tree `t` (the tree itself or a node of a subtree). -/
inductive OccursIn : TreeNode → TreeNode → Prop where
  | here (t : TreeNode) : OccursIn t t
  | viaChild {n c t : TreeNode} : c ∈ t.children → OccursIn n c → OccursIn n t

mutual

/-- Stated from the spec's words (§4.4): the number of nodes reachable from the
root through nodes that all pass inclusion — a node failing inclusion
contributes nothing, and neither does any of its descendants. -/
def includedCount (p : TreeNode → Bool) : TreeNode → Nat
  | .mk a b c d e f cs =>
    if p (.mk a b c d e f cs) then 1 + includedCountList p cs else 0

def includedCountList (p : TreeNode → Bool) : List TreeNode → Nat
  | [] => 0
  | t :: ts => includedCount p t + includedCountList p ts

end

def optCount : Option TreeNode → Nat
  | none => 0
  | some t => t.countNodes

/-! ### JSON serialization
`to_dict` composed with `json.dump(..., separators=(',', ':'))`
(MultiThreadVersion.py lines 28-43 and 502). -/

mutual

def nodeJson : TreeNode → String
  | .mk tid nm s e dur d cs =>
    "\x7b\"timer_id\":" ++ toString tid ++ ",\"timer_name\":\"" ++ nm ++
      "\",\"start_time\":" ++ toString s ++ ",\"end_time\":" ++ toString e ++
      ",\"duration\":" ++ toString dur ++ ",\"depth\":" ++ toString d ++
      ",\"children\":[" ++ childrenJson cs ++ "]\x7d"

def childrenJson : List TreeNode → String
  | [] => ""
  | [c] => nodeJson c
  | c :: c2 :: cs => nodeJson c ++ "," ++ childrenJson (c2 :: cs)

end

def entryJson : Option TreeNode → String
  | none => "\x7b\x7d"
  | some t => nodeJson t

/-! ### Rows, frames and the two timer-name normalizers -/

/-- The fields of one CSV row other than `Depth`; `Row.fields = none` models a
row whose TimerId/StartTime/EndTime/Duration text fails to parse, which raises
inside the worker (the segmenter itself only reads `Depth`). -/
structure RowFields where
  timerId : Int
  timerName : String
  startTime : Int
  endTime : Int
  duration : Int

structure Row where
  depth : Nat
  fields : Option RowFields

/-- `FrameData` (MultiThreadVersion.py lines 171-177). -/
structure FrameData where
  frameIndex : Nat
  rows : List Row

/-- `ProcessedFrame` (MultiThreadVersion.py lines 180-192); the timing fields
play no part in any claim and are dropped.  `frameDict = none` embeds the empty
dict `{}` given to excluded frames. -/
structure ProcessedFrame where
  frameIndex : Nat
  frameDict : Option TreeNode
  originalNodes : Nat
  filteredNodes : Nat
  included : Bool

/-- `DefaultTimerNameProcessor.process_timer_name`
(src/Utils/Trace/Processor/DefaultProcessors.py lines 29-38): the cleanup
patterns are commented out; the empty name is replaced by the sentinel. -/
def processTimerName (timerName : String) (_timerId : Int) (_depth : Nat) : String :=
  if timerName = "" then ("FrameKento") else timerName

/-- `re.sub(r'^STAT_', '', s)`: the anchored pattern matches at most once. -/
def subSTATL (cs : List Char) : List Char :=
  if cs.take 5 = ['S', 'T', 'A', 'T', '_'] then cs.drop 5 else cs

mutual

/-- `re.sub(r'_+', '_', s)`: every maximal run of underscores becomes one. -/
def collapseU : List Char → List Char
  | [] => []
  | c :: cs => if c = '_' then '_' :: skipU cs else c :: collapseU cs

def skipU : List Char → List Char
  | [] => []
  | c :: cs => if c = '_' then skipU cs else c :: collapseU cs

end

def dropTrailingU (cs : List Char) : List Char :=
  if cs.getLast? = some '_' then cs.dropLast else cs

/-- `re.sub(r'^_|_$', '', s)`: the scan consumes one leading underscore (if
any) and then one trailing underscore whose position was not already consumed
(so `"_"` loses its only character to the `^_` branch alone). -/
def trimEdgeU (cs : List Char) : List Char :=
  match cs with
  | '_' :: rest => dropTrailingU rest
  | other => dropTrailingU other

/-- `DefaultTimerNameProcessor.process_timer_name` of
src/Utils/Trace/MultiThreadVersion.py (lines 98-102): the three cleanup
patterns are applied in order and there is no empty-name sentinel. -/
def processTimerNameMT (timerName : String) (_timerId : Int) (_depth : Nat) : String :=
  String.mk (trimEdgeU (collapseU (subSTATL timerName.toList)))

/-! ### The stack-discipline tree builder and the worker unit
`process_single_frame` (MultiThreadVersion.py lines 318-398). -/

/-- The node stack: each open node paired with the children accumulated for it
so far, most recent first (Python appends into `parent.children` through the
live object; the functional embedding attaches a node to its parent when it is
popped, which happens in the same order). -/
abbrev BuildStack := List (TreeNode × List TreeNode)

def popToDepthF : Nat → Nat → BuildStack → BuildStack
  | 0, _, st => st
  | fuel + 1, d, st =>
    if st.length > d then
      match st with
      | [] => []
      | (n, cs) :: rest =>
        match rest with
        | [] => popToDepthF fuel d []
        | (n2, cs2) :: r2 => popToDepthF fuel d ((n2, n.withChildren cs.reverse :: cs2) :: r2)
    else st

/-- `while len(node_stack) > depth: node_stack.pop()` (lines 352-353).  A node
popped with no parent below it was never attached to anything (line 355's
guard) and is dropped. -/
def popToDepth (d : Nat) (st : BuildStack) : BuildStack :=
  popToDepthF st.length d st

def collapseGo (child : TreeNode) : BuildStack → TreeNode
  | [] => child
  | (n, cs) :: rest => collapseGo (n.withChildren (child :: cs).reverse) rest

/-- Closing every still-open node at the end of the row loop; the bottom of the
stack is `frame_root`. -/
def collapseStack : BuildStack → Option TreeNode
  | [] => none
  | (n, cs) :: rest => some (collapseGo (n.withChildren cs.reverse) rest)

/-- The number of tree nodes an open stack holds: one per open node plus the
nodes of its accumulated children (every node is pushed with an empty children
list, so each entry itself stands for exactly one node). -/
def stackCount : BuildStack → Nat
  | [] => 0
  | (_, cs) :: rest => 1 + countNodesList cs + stackCount rest

/-- The row loop of `process_single_frame` (lines 332-359): builds the tree of
the last depth-0 row, returns `.ok none` when no depth-0 row occurred
(`frame_root is None`), and `.error ()` when a row's fields fail to parse
(caught by the catch-all at lines 395-398). -/
def buildGo (tp : String → Int → Nat → String) :
    List Row → BuildStack → Bool → Except Unit (Option TreeNode)
  | [], st, hasRoot => if hasRoot then .ok (collapseStack st) else .ok none
  | r :: rs, st, hasRoot =>
    match r.fields with
    | none => .error ()
    | some f =>
      let node : TreeNode :=
        .mk f.timerId (tp f.timerName f.timerId r.depth) f.startTime f.endTime
          f.duration r.depth []
      if r.depth = 0 then
        buildGo tp rs [(node, [])] true
      else
        buildGo tp rs ((node, []) :: popToDepth r.depth st) hasRoot

def buildFromRows (tp : String → Int → Nat → String) (rows : List Row) :
    Except Unit (Option TreeNode) :=
  buildGo tp rows [] false

/-- `process_single_frame` (lines 318-398), with the default `process_node` and
`process_frame` (both return their argument).  In the included branch the
source computes `original_count = count_nodes_in_tree(frame_root)` at line 389,
AFTER `filter_tree_nodes` has rewritten the children lists of that same object,
so the embedding reads the count off `filterPost` — the post-call state of
`frame_root`. -/
def processSingleFrame (tp : String → Int → Nat → String) (pN : TreeNode → Bool)
    (pF : TreeNode → Nat → Bool) (fd : FrameData) : ProcessedFrame :=
  match buildFromRows tp fd.rows with
  | .error _ => ⟨fd.frameIndex, none, 0, 0, false⟩
  | .ok none => ⟨fd.frameIndex, none, 0, 0, false⟩
  | .ok (some root) =>
    if pF root fd.frameIndex then
      match filterTreeNodes pN root with
      | some filtered =>
        ⟨fd.frameIndex, some filtered, (filterPost pN root).countNodes,
          filtered.countNodes, true⟩
      | none => ⟨fd.frameIndex, none, (filterPost pN root).countNodes, 0, false⟩
    else
      ⟨fd.frameIndex, none, root.countNodes, 0, false⟩

/-! ### The frame segmenter
`read_csv_and_split_frames` (MultiThreadVersion.py lines 261-289). -/

/-- `if max_frames and frame_index >= max_frames` — `None` and `0` are falsy. -/
def stopAfter (mf : Option Nat) (i : Nat) : Bool :=
  match mf with
  | none => false
  | some m => decide (0 < m) && decide (m ≤ i)

/-- The reader loop.  On `break` the just-yielded rows are still in
`current_frame_rows` (the `clear()` sits after the break), so the final flush
at lines 288-289 yields them again under the next index. -/
def splitGo (mf : Option Nat) : List Row → List Row → Nat → List FrameData
  | [], cur, idx => if cur.isEmpty then [] else [⟨idx, cur⟩]
  | r :: rs, cur, idx =>
    if r.depth = 0 then
      if cur.isEmpty then
        splitGo mf rs (cur ++ [r]) idx
      else if stopAfter mf (idx + 1) then
        [⟨idx, cur⟩, ⟨idx + 1, cur⟩]
      else
        ⟨idx, cur⟩ :: splitGo mf rs [r] (idx + 1)
    else
      splitGo mf rs (cur ++ [r]) idx

def splitFrames (mf : Option Nat) (rows : List Row) : List FrameData :=
  splitGo mf rows [] 0

/-! ### The reorder buffer and the batch scheduler
`process_csv_multithreaded` (MultiThreadVersion.py lines 402-537), in the
writing configuration (`write_json=True` with an output path). -/

abbrev BufEntry := Nat × Option TreeNode

/-- `frame_buffer[k] = v` on the key-sorted association list (assignment
overwrites an existing key). -/
def insertSorted (k : Nat) (v : Option TreeNode) : List BufEntry → List BufEntry
  | [] => [(k, v)]
  | (k2, v2) :: rest =>
    if k < k2 then (k, v) :: (k2, v2) :: rest
    else if k = k2 then (k, v) :: rest
    else (k2, v2) :: insertSorted k v rest

/-- `k in frame_buffer` / `frame_buffer[k]`. -/
def lookupBuf : List BufEntry → Nat → Option (Option TreeNode)
  | [], _ => none
  | (k2, v) :: rest, k => if k2 = k then some v else lookupBuf rest k

/-- `del frame_buffer[k]`. -/
def eraseBuf (buf : List BufEntry) (k : Nat) : List BufEntry :=
  buf.filter (fun p => p.1 != k)

/-- `while next_frame_to_write in frame_buffer: ...` (lines 499-505): returns
the buffer and expected index after the loop together with the entries written,
in writing order.  The fuel is the buffer size; every successful iteration
removes one entry, so it never runs out. -/
def drainF : Nat → List BufEntry → Nat → List BufEntry × Nat × List BufEntry
  | 0, buf, t => (buf, t, [])
  | fuel + 1, buf, t =>
    match lookupBuf buf t with
    | none => (buf, t, [])
    | some v =>
      let r := drainF fuel (eraseBuf buf t) (t + 1)
      (r.1, r.2.1, (t, v) :: r.2.2)

def drainBuf (buf : List BufEntry) (t : Nat) : List BufEntry × Nat × List BufEntry :=
  drainF buf.length buf t

/-- The coordinator state: the reorder buffer, the next expected index, the
frames written to the sink so far, and the
`ThreadSafePerformanceTracker` counters (lines 195-257). -/
structure RunState where
  buffer : List BufEntry
  nextToWrite : Nat
  written : List BufEntry
  frameCount : Nat
  totalNodes : Nat
  filteredNodes : Nat
  filteredFrames : Nat

def initState : RunState := ⟨[], 0, [], 0, 0, 0, 0⟩

/-- One completed future (lines 479-495): `tracker.track_frame` plus the
buffering of an included frame's dict under its index. -/
def trackCollect (st : RunState) (pf : ProcessedFrame) : RunState :=
  { buffer := if pf.included then insertSorted pf.frameIndex pf.frameDict st.buffer
              else st.buffer
    nextToWrite := st.nextToWrite
    written := st.written
    frameCount := st.frameCount + 1
    totalNodes := st.totalNodes + pf.originalNodes
    filteredNodes := st.filteredNodes + pf.filteredNodes
    filteredFrames := st.filteredFrames + (if pf.included then 0 else 1) }

/-- The in-order flush after a batch (lines 498-505). -/
def drainWrite (st : RunState) : RunState :=
  let r := drainBuf st.buffer st.nextToWrite
  { st with buffer := r.1, nextToWrite := r.2.1, written := st.written ++ r.2.2 }

/-- One batch: collect every future's result in completion order, then drain. -/
def runBatch (st : RunState) (completed : List ProcessedFrame) : RunState :=
  drainWrite (completed.foldl trackCollect st)

def runBatchesGo (sched : Nat → List ProcessedFrame → List ProcessedFrame) :
    Nat → List (List ProcessedFrame) → RunState → RunState
  | _, [], st => st
  | j, batch :: rest, st => runBatchesGo sched (j + 1) rest (runBatch st (sched j batch))

/-- The catch-up pass after the last batch (lines 514-521): the still-buffered
indices at or past the expected one, sorted, are written; nothing is deleted
and the expected index does not move. -/
def finalFlush (st : RunState) : RunState :=
  let keys := (st.buffer.map (fun p => p.1)).filter (fun i => decide (st.nextToWrite ≤ i))
  let entries := (pySorted (fun a b => decide (a ≤ b)) keys).filterMap
    (fun k => (lookupBuf st.buffer k).map (fun v => (k, v)))
  { st with written := st.written ++ entries }

/-- `process_csv_multithreaded` in the writing configuration: segment, process
every frame (each worker unit is deterministic; `sched j` is the completion
order of batch `j`), run the batches, then the catch-up pass.  With no frames
the function returns at lines 454-456 before any batch. -/
def processCsvRun (tp : String → Int → Nat → String) (pN : TreeNode → Bool)
    (pF : TreeNode → Nat → Bool) (batchSize : Nat) (mf : Option Nat)
    (rows : List Row) (sched : Nat → List ProcessedFrame → List ProcessedFrame) :
    RunState :=
  let frames := splitFrames mf rows
  if frames.isEmpty then initState
  else
    finalFlush (runBatchesGo sched 0
      (chunks batchSize (frames.map (processSingleFrame tp pN pF))) initState)

/-- The bytes written to the JSON sink: `'['`, the frame dicts joined by
`',\n'`, and `'\n]'` — except that the zero-frame early return leaves the file
holding only the opening bracket. -/
def processCsvBytes (tp : String → Int → Nat → String) (pN : TreeNode → Bool)
    (pF : TreeNode → Nat → Bool) (batchSize : Nat) (mf : Option Nat)
    (rows : List Row) (sched : Nat → List ProcessedFrame → List ProcessedFrame) :
    String :=
  if (splitFrames mf rows).isEmpty then ("[")
  else
    "[" ++ String.intercalate (",\n")
      ((processCsvRun tp pN pF batchSize mf rows sched).written.map
        (fun p => entryJson p.2)) ++ "\n]"

/-- The node/frame counters of `get_summary` (lines 239-257). -/
structure Summary where
  totalFrames : Nat
  filteredFrames : Nat
  includedFrames : Nat
  totalNodes : Nat
  filteredNodes : Nat
  includedNodes : Nat

def getSummary (st : RunState) : Summary :=
  ⟨st.frameCount, st.filteredFrames, st.frameCount - st.filteredFrames,
    st.totalNodes, st.filteredNodes, st.totalNodes - st.filteredNodes⟩

/-! Specification-side descriptions of the scheduler's observable behaviour,
used to state the ordering and determinism claims. -/

def entryOf (pf : ProcessedFrame) : BufEntry := (pf.frameIndex, pf.frameDict)

/-- The output a sequential run would produce: the included frames' entries in
input order. -/
def canonicalWritten (res : List ProcessedFrame) : List BufEntry :=
  (res.filter (fun pf => pf.included)).map entryOf

/-- The position of the first result not included (the length of the included
initial run). -/
def firstNI (res : List ProcessedFrame) : Nat :=
  (res.takeWhile (fun pf => pf.included)).length

/-- The per-frame results of a run, in input order (every worker unit is a
deterministic function of its frame). -/
def resultsOf (tp : String → Int → Nat → String) (pN : TreeNode → Bool)
    (pF : TreeNode → Nat → Bool) (mf : Option Nat) (rows : List Row) :
    List ProcessedFrame :=
  (splitFrames mf rows).map (processSingleFrame tp pN pF)

/-- A well-formed frame group: rooted at its first row, which is the group's
only depth-0 row. -/
def GoodGroup (rows : List Row) : Prop :=
  ∃ r0 t, rows = r0 :: t ∧ r0.depth = 0 ∧ ∀ r ∈ t, r.depth ≠ 0

/-- The buffer contribution of the collection loop alone: each included result
is stored under its frame index, in completion order. -/
def bufInsertAll (buf : List BufEntry) (l : List ProcessedFrame) : List BufEntry :=
  l.foldl
    (fun b pf => if pf.included then insertSorted pf.frameIndex pf.frameDict b else b)
    buf

/-- The coordinator invariant after the results `pre` have been collected and
drained: everything before the first excluded frame has been written, the
expected index is stuck at the first excluded frame, the included frames past
it are still buffered, and the tracker has seen every result. -/
structure Inv (pre : List ProcessedFrame) (st : RunState) : Prop where
  written : st.written = (pre.takeWhile (fun pf => pf.included)).map entryOf
  next : st.nextToWrite = firstNI pre
  buffer : st.buffer = canonicalWritten (pre.drop (firstNI pre))
  frameCount : st.frameCount = pre.length
  totalNodes : st.totalNodes = (pre.map (fun pf => pf.originalNodes)).sum
  filteredNodes : st.filteredNodes = (pre.map (fun pf => pf.filteredNodes)).sum
  filteredFrames : st.filteredFrames = (pre.filter (fun pf => !pf.included)).length

end Xperf

/-! ### The interval-containment builder
src/Utils/Trace/BuildTree.py. -/

namespace UT

structure UEvent where
  name : String
  dur : Int
  start : Int
  stop : Int
  depth : Nat
deriving DecidableEq

/-- `bisect.bisect_left(starts, x)` for the sorted lists it is applied to. -/
def bisectLeft (xs : List Int) (x : Int) : Nat :=
  (xs.takeWhile (fun y => decide (y < x))).length

/-- `bisect.bisect_right(starts, x)` for the sorted lists it is applied to. -/
def bisectRight (xs : List Int) (x : Int) : Nat :=
  (xs.takeWhile (fun y => decide (y ≤ x))).length

/-- `next_events[left_idx:right_idx]` (BuildTree.py lines 124-132). -/
def candidateSlice (fs fe : Int) (next : List UEvent) : List UEvent :=
  let starts := next.map (fun e => e.start)
  (next.drop (bisectLeft starts fs)).take (bisectRight starts fe - bisectLeft starts fs)

/-- The level-(L+1) events attached as children of a parent spanning
`[fs, fe]`: the slice of start-time candidates, kept only when
`child_end < father_end` (BuildTree.py lines 132-144 — note the strict
comparison at line 135). -/
def attachedChildren (fs fe : Int) (next : List UEvent) : List UEvent :=
  (candidateSlice fs fe next).filter (fun e => decide (e.stop < fe))

inductive UTree : Type where
  | mk (name : String) (consumption : Int) (start stop : Int) (depth : Nat)
       (children : List UTree)

/-- The level loop of `build_tree` (lines 118-145), seen from one node: its
children are its attached candidates from the next level, each built
recursively against the remaining levels. -/
def buildNode : UEvent → List (List UEvent) → UTree
  | ev, [] => .mk ev.name ev.dur ev.start ev.stop ev.depth []
  | ev, nxt :: rest =>
    .mk ev.name ev.dur ev.start ev.stop ev.depth
      ((attachedChildren ev.start ev.stop nxt).map (fun c => buildNode c rest))

/-- A line of one frame group; `none` is the header line or a line whose fields
fail to parse — both are skipped (`continue` / silent `except`). -/
abbrev ULine := Option UEvent

/-- The parsing loop of `handle_single_frame` (lines 67-90): skipped lines
vanish, and an empty event name becomes `"Frame"` (the falsy-name branch at
lines 81-88). -/
def parseLines (lines : List ULine) : List UEvent :=
  lines.filterMap (fun l => l.map (fun e =>
    if e.name = "" then { e with name := ("Frame") } else e))

/-- `key=lambda x: (x['event_depth'], x['event_start'])`. -/
def rowLe (a b : UEvent) : Bool :=
  decide (a.depth < b.depth) || (decide (a.depth = b.depth) && decide (a.start ≤ b.start))

/-- `handle_single_frame` (lines 66-101): parse, sort, read
`sorted_data[-1]` — which raises `IndexError` on an empty list — then bucket by
depth into `leveled_data` (keys `0..max_depth-1` in order). -/
def handleSingleFrame (lines : List ULine) : Except Unit (List (List UEvent)) :=
  let sorted := pySorted rowLe (parseLines lines)
  match sorted.getLast? with
  | none => .error ()
  | some last =>
    .ok ((List.range (last.depth + 1)).map
      (fun d => sorted.filter (fun e => decide (e.depth = d))))

/-- `build_tree` (lines 103-147): `None` for an empty `leveled_data`, an
`IndexError` when level 0 holds no event (`leveled_data[0][0]`), else the tree
rooted at the first level-0 event. -/
def buildTree (leveled : List (List UEvent)) : Except Unit (Option UTree) :=
  match leveled with
  | [] => .ok none
  | l0 :: rest =>
    match l0 with
    | [] => .error ()
    | rootEv :: _ => .ok (some (buildNode rootEv rest))

/-- One frame of `run` (lines 153-164): `handle_single_frame` then
`build_tree`; any raise is caught by the per-frame handler. -/
def runOne (lines : List ULine) : Except Unit (Option UTree) :=
  match handleSingleFrame lines with
  | .error e => .error e
  | .ok lv => buildTree lv

/-- The frame loop of `run`: every frame is attempted; an error in one frame
never stops the rest. -/
def runAll (frames : List (List ULine)) : List (Except Unit (Option UTree)) :=
  frames.map runOne

end UT

/-! Smoke checks of the embedding on concrete inputs. -/

namespace Xperf

theorem smoke_count :
    (TreeNode.mk 0 ("a") 0 1 1 0 [TreeNode.mk 1 ("b") 0 1 1 1 []]).countNodes = 2 := rfl

theorem smoke_timer_name_mt : processTimerNameMT ("STAT_a__b_") 0 0 = "a_b" := rfl

theorem smoke_timer_name_mt_empty : processTimerNameMT ("") 0 0 = ("") := rfl

/-! ### Lemmas about the node filter -/

theorem filterTreeNodes_of_false {p : TreeNode → Bool} {t : TreeNode}
    (h : p t = false) : filterTreeNodes p t = none := by
  match t with
  | .mk a b c d e f cs => rw [filterTreeNodes, h]; rfl

theorem filterTreeNodes_of_true {p : TreeNode → Bool} {t : TreeNode}
    (h : p t = true) :
    filterTreeNodes p t = some (t.withChildren (filterChildren p t.children)) := by
  match t with
  | .mk a b c d e f cs =>
    rw [filterTreeNodes, h]
    rfl

theorem filterPost_of_true {p : TreeNode → Bool} {t : TreeNode} (h : p t = true) :
    filterPost p t = t.withChildren (filterChildren p t.children) := by
  match t with
  | .mk a b c d e f cs => rw [filterPost, h]; rfl

theorem filterPost_of_false {p : TreeNode → Bool} {t : TreeNode} (h : p t = false) :
    filterPost p t = t := by
  match t with
  | .mk a b c d e f cs => rw [filterPost, h]; rfl

/-- The aliasing fact: the tree `filter_tree_nodes` returns is (with the
default `process_node`) the very object it was handed, as the mutation left
it. -/
theorem filterTreeNodes_eq_filterPost {p : TreeNode → Bool} {t u : TreeNode}
    (h : filterTreeNodes p t = some u) : u = filterPost p t := by
  rcases hb : p t with _ | _
  · rw [filterTreeNodes_of_false hb] at h; cases h
  · rw [filterTreeNodes_of_true hb] at h
    rw [filterPost_of_true hb]
    exact (Option.some.injEq _ _ ▸ h).symm

mutual

theorem optCount_filter (p : TreeNode → Bool) (t : TreeNode) :
    optCount (filterTreeNodes p t) = includedCount p t := by
  match t with
  | .mk a b c d e f cs =>
    rw [filterTreeNodes, includedCount]
    by_cases hp : p (.mk a b c d e f cs) = true
    · rw [if_pos hp, if_pos hp, optCount, TreeNode.countNodes,
        countList_filterChildren p cs]
    · rw [if_neg hp, if_neg hp]; rfl

theorem countList_filterChildren (p : TreeNode → Bool) (cs : List TreeNode) :
    countNodesList (filterChildren p cs) = includedCountList p cs := by
  match cs with
  | [] => rfl
  | c :: cs =>
    rw [filterChildren, includedCountList]
    have hc := optCount_filter p c
    match hf : filterTreeNodes p c with
    | some fc =>
      rw [hf] at hc
      rw [countNodesList, countList_filterChildren p cs, ← hc]
      rfl
    | none =>
      rw [hf] at hc
      rw [countList_filterChildren p cs, ← hc]
      simp [optCount]

end

mutual

theorem filterTreeNodes_true (t : TreeNode) :
    filterTreeNodes (fun _ => true) t = some t := by
  match t with
  | .mk a b c d e f cs =>
    rw [filterTreeNodes, if_pos rfl, filterChildren_true cs]

theorem filterChildren_true (cs : List TreeNode) :
    filterChildren (fun _ => true) cs = cs := by
  match cs with
  | [] => rfl
  | c :: cs => rw [filterChildren, filterTreeNodes_true c, filterChildren_true cs]

end

theorem one_le_countNodes (t : TreeNode) : 1 ≤ t.countNodes := by
  match t with
  | .mk a b c d e f cs => rw [TreeNode.countNodes]; omega

theorem countNodesList_append (l1 l2 : List TreeNode) :
    countNodesList (l1 ++ l2) = countNodesList l1 + countNodesList l2 := by
  induction l1 with
  | nil => simp [countNodesList]
  | cons t ts ih => rw [List.cons_append, countNodesList, countNodesList, ih]; omega

theorem countNodesList_reverse (l : List TreeNode) :
    countNodesList l.reverse = countNodesList l := by
  induction l with
  | nil => rfl
  | cons t ts ih =>
    rw [List.reverse_cons, countNodesList_append, countNodesList, countNodesList,
      countNodesList, ih]
    omega

theorem countNodes_withChildren (n : TreeNode) (l : List TreeNode) :
    (n.withChildren l).countNodes = 1 + countNodesList l := by
  match n with
  | .mk a b c d e f cs => rfl

theorem withChildren_self (n : TreeNode) : n.withChildren n.children = n := by
  match n with
  | .mk a b c d e f cs => rfl

/-! ### Lemmas about the stack-discipline builder -/

theorem stackCount_popToDepthF (d : Nat) (hd : 1 ≤ d) :
    ∀ fuel st, stackCount (popToDepthF fuel d st) = stackCount st := by
  intro fuel
  induction fuel with
  | zero => intro st; rfl
  | succ fuel ih =>
    intro st
    match st with
    | [] =>
      show stackCount (if ([] : BuildStack).length > d then _ else []) = _
      rw [if_neg (by simp)]
    | (n, cs) :: rest =>
      show stackCount (if ((n, cs) :: rest).length > d then _ else _) = _
      by_cases hlen : ((n, cs) :: rest).length > d
      · rw [if_pos hlen]
        match rest with
        | [] =>
          exfalso
          have : (1 : Nat) > d := by simpa using hlen
          omega
        | (n2, cs2) :: r2 =>
          rw [ih ((n2, n.withChildren cs.reverse :: cs2) :: r2)]
          show 1 + countNodesList (n.withChildren cs.reverse :: cs2) + stackCount r2 = _
          rw [countNodesList, countNodes_withChildren, countNodesList_reverse]
          show _ = 1 + countNodesList cs + (1 + countNodesList cs2 + stackCount r2)
          omega
      · rw [if_neg hlen]

theorem popToDepthF_ne_nil (d : Nat) (hd : 1 ≤ d) :
    ∀ fuel st, st ≠ [] → popToDepthF fuel d st ≠ [] := by
  intro fuel
  induction fuel with
  | zero => intro st h; exact h
  | succ fuel ih =>
    intro st h
    match st with
    | (n, cs) :: rest =>
      show (if ((n, cs) :: rest).length > d then _ else _) ≠ []
      by_cases hlen : ((n, cs) :: rest).length > d
      · rw [if_pos hlen]
        match rest with
        | [] =>
          exfalso
          have : (1 : Nat) > d := by simpa using hlen
          omega
        | (n2, cs2) :: r2 => exact ih _ (by simp)
      · rw [if_neg hlen]; exact h

theorem collapseGo_count (st : BuildStack) :
    ∀ child, (collapseGo child st).countNodes = child.countNodes + stackCount st := by
  induction st with
  | nil => intro child; simp [collapseGo, stackCount]
  | cons e rest ih =>
    intro child
    match e with
    | (n, cs) =>
      rw [collapseGo, ih, countNodes_withChildren, countNodesList_reverse,
        countNodesList]
      show _ = child.countNodes + (1 + countNodesList cs + stackCount rest)
      omega

theorem collapseStack_count (st : BuildStack) (h : st ≠ []) :
    ∃ root, collapseStack st = some root ∧ root.countNodes = stackCount st := by
  match st with
  | (n, cs) :: rest =>
    refine ⟨collapseGo (n.withChildren cs.reverse) rest, rfl, ?_⟩
    rw [collapseGo_count, countNodes_withChildren, countNodesList_reverse]
    show _ = 1 + countNodesList cs + stackCount rest
    omega

theorem buildGo_ok (tp : String → Int → Nat → String) :
    ∀ rows st, st ≠ [] → (∀ r ∈ rows, r.depth ≠ 0 ∧ r.fields.isSome) →
      ∃ root, buildGo tp rows st true = .ok (some root) ∧
        root.countNodes = stackCount st + rows.length := by
  intro rows
  induction rows with
  | nil =>
    intro st hne _
    obtain ⟨root, hc, hcount⟩ := collapseStack_count st hne
    exact ⟨root, by rw [buildGo, if_pos rfl, hc], by simpa using hcount⟩
  | cons r rs ih =>
    intro st hne hall
    obtain ⟨hd, hf⟩ := hall r (by simp)
    match hfs : r.fields with
    | none => rw [hfs] at hf; cases hf
    | some f =>
      have hd1 : 1 ≤ r.depth := Nat.one_le_iff_ne_zero.mpr hd
      rw [buildGo, hfs]
      show ∃ root, (if r.depth = 0 then _ else _) = _ ∧ _
      rw [if_neg hd]
      obtain ⟨root, hb, hcount⟩ :=
        ih ((TreeNode.mk f.timerId (tp f.timerName f.timerId r.depth) f.startTime
              f.endTime f.duration r.depth [], []) :: popToDepth r.depth st)
          (by simp) (fun x hx => hall x (by simp [hx]))
      refine ⟨root, hb, ?_⟩
      rw [hcount]
      show 1 + countNodesList [] + stackCount (popToDepth r.depth st) + rs.length = _
      rw [popToDepth, stackCount_popToDepthF r.depth hd1, countNodesList]
      simp only [List.length_cons]
      omega

theorem buildFromRows_rooted (tp : String → Int → Nat → String) (r0 : Row)
    (rest : List Row) (hd : r0.depth = 0) (hf : r0.fields.isSome)
    (hrest : ∀ r ∈ rest, r.depth ≠ 0 ∧ r.fields.isSome) :
    ∃ root, buildFromRows tp (r0 :: rest) = .ok (some root) ∧
      root.countNodes = (r0 :: rest).length := by
  match hfs : r0.fields with
  | none => rw [hfs] at hf; cases hf
  | some f =>
    obtain ⟨root, hb, hcount⟩ := buildGo_ok tp rest
      [(TreeNode.mk f.timerId (tp f.timerName f.timerId r0.depth) f.startTime
          f.endTime f.duration r0.depth [], [])]
      (by simp) hrest
    refine ⟨root, ?_, ?_⟩
    · rw [buildFromRows, buildGo, hfs]
      show (if r0.depth = 0 then _ else _) = _
      rw [if_pos hd]
      exact hb
    · rw [hcount]
      show 1 + countNodesList [] + 0 + rest.length = _
      rw [countNodesList]
      simp only [List.length_cons]
      omega

theorem buildGo_error (tp : String → Int → Nat → String) :
    ∀ rows, (∃ r ∈ rows, r.fields = none) → ∀ st hr,
      buildGo tp rows st hr = .error () := by
  intro rows
  induction rows with
  | nil => rintro ⟨r, hmem, _⟩; cases hmem
  | cons r rs ih =>
    rintro ⟨x, hmem, hx⟩ st hr
    match hfs : r.fields with
    | none => rw [buildGo, hfs]
    | some f =>
      have hxrs : x ∈ rs := by
        rcases List.mem_cons.mp hmem with h | h
        · exfalso; rw [h, hfs] at hx; cases hx
        · exact h
      rw [buildGo, hfs]
      show (if r.depth = 0 then _ else _) = _
      by_cases hd : r.depth = 0
      · rw [if_pos hd]; exact ih ⟨x, hxrs, hx⟩ _ _
      · rw [if_neg hd]; exact ih ⟨x, hxrs, hx⟩ _ _

theorem buildGo_noRoot (tp : String → Int → Nat → String) :
    ∀ rows, (∀ r ∈ rows, r.depth ≠ 0) → ∀ st,
      buildGo tp rows st false = .ok none ∨ buildGo tp rows st false = .error () := by
  intro rows
  induction rows with
  | nil => intro _ st; left; rw [buildGo, if_neg (by simp)]
  | cons r rs ih =>
    intro hall st
    match hfs : r.fields with
    | none => right; rw [buildGo, hfs]
    | some f =>
      rw [buildGo, hfs]
      show (if r.depth = 0 then _ else _) = _ ∨ (if r.depth = 0 then _ else _) = _
      rw [if_neg (hall r (by simp))]
      exact ih (fun x hx => hall x (by simp [hx])) _

/-- A worker unit whose frame holds a row with unparseable fields returns the
excluded zero-count result (the catch-all of lines 395-398). -/
theorem processSingleFrame_exception (tp : String → Int → Nat → String)
    (pN : TreeNode → Bool) (pF : TreeNode → Nat → Bool) (fd : FrameData)
    (h : ∃ r ∈ fd.rows, r.fields = none) :
    processSingleFrame tp pN pF fd = ⟨fd.frameIndex, none, 0, 0, false⟩ := by
  rw [processSingleFrame, buildFromRows, buildGo_error tp fd.rows h]

/-- A worker unit whose frame has no depth-0 row returns the excluded
zero-count result (`frame_root is None`, lines 363-364, or the catch-all). -/
theorem processSingleFrame_rootless (tp : String → Int → Nat → String)
    (pN : TreeNode → Bool) (pF : TreeNode → Nat → Bool) (fd : FrameData)
    (h : ∀ r ∈ fd.rows, r.depth ≠ 0) :
    processSingleFrame tp pN pF fd = ⟨fd.frameIndex, none, 0, 0, false⟩ := by
  rcases buildGo_noRoot tp fd.rows h [] with hb | hb
  · rw [processSingleFrame, buildFromRows, hb]
  · rw [processSingleFrame, buildFromRows, hb]

theorem processSingleFrame_frameIndex (tp : String → Int → Nat → String)
    (pN : TreeNode → Bool) (pF : TreeNode → Nat → Bool) (fd : FrameData) :
    (processSingleFrame tp pN pF fd).frameIndex = fd.frameIndex := by
  unfold processSingleFrame
  split
  · rfl
  · rfl
  · split
    · split
      · rfl
      · rfl
    · rfl

theorem processSingleFrame_filtered_le (tp : String → Int → Nat → String)
    (pN : TreeNode → Bool) (pF : TreeNode → Nat → Bool) (fd : FrameData) :
    (processSingleFrame tp pN pF fd).filteredNodes ≤
      (processSingleFrame tp pN pF fd).originalNodes := by
  unfold processSingleFrame
  split
  · exact Nat.le_refl 0
  · exact Nat.le_refl 0
  · split
    · split
      · rename_i filtered heq
        rw [filterTreeNodes_eq_filterPost heq]
      · exact Nat.zero_le _
    · exact Nat.zero_le _

/-- With a node filter that keeps every node and a frame of well-formed rows
rooted at its first row, the worker reports the group size as the original
count (and as the filtered count when the frame is included). -/
theorem processSingleFrame_counts (tp : String → Int → Nat → String)
    (pF : TreeNode → Nat → Bool) (fd : FrameData) (r0 : Row) (rest : List Row)
    (hrows : fd.rows = r0 :: rest) (hd : r0.depth = 0) (hf : r0.fields.isSome)
    (hrest : ∀ r ∈ rest, r.depth ≠ 0 ∧ r.fields.isSome) :
    (processSingleFrame tp (fun _ => true) pF fd).originalNodes = fd.rows.length := by
  obtain ⟨root, hb, hcount⟩ := buildFromRows_rooted tp r0 rest hd hf hrest
  have hb2 : buildFromRows tp fd.rows = .ok (some root) := by rw [hrows]; exact hb
  unfold processSingleFrame
  simp only [hb2, filterTreeNodes_true root]
  split
  · show (filterPost (fun _ => true) root).countNodes = _
    rw [filterPost_of_true rfl, filterChildren_true, withChildren_self, hcount, hrows]
  · show root.countNodes = _
    rw [hcount, hrows]

/-! ### Lemmas about the frame segmenter -/

theorem splitGo_indices (mf : Option Nat) :
    ∀ rows cur idx, (splitGo mf rows cur idx).map (fun fd => fd.frameIndex) =
      List.range' idx (splitGo mf rows cur idx).length := by
  intro rows
  induction rows with
  | nil =>
    intro cur idx
    rw [splitGo]
    by_cases h : cur.isEmpty = true
    · rw [if_pos h]; rfl
    · rw [if_neg h]; rfl
  | cons r rs ih =>
    intro cur idx
    rw [splitGo]
    by_cases hd : r.depth = 0
    · rw [if_pos hd]
      by_cases hc : cur.isEmpty = true
      · rw [if_pos hc]; exact ih _ _
      · rw [if_neg hc]
        by_cases hstop : stopAfter mf (idx + 1) = true
        · rw [if_pos hstop]; rfl
        · rw [if_neg hstop]
          rw [List.map_cons, ih [r] (idx + 1), List.length_cons, List.range'_succ]
    · rw [if_neg hd]; exact ih _ _

theorem splitGo_sum_len :
    ∀ rows cur idx,
      ((splitGo none rows cur idx).map (fun fd => fd.rows.length)).sum =
        cur.length + rows.length := by
  intro rows
  induction rows with
  | nil =>
    intro cur idx
    rw [splitGo]
    by_cases h : cur.isEmpty = true
    · rw [if_pos h, List.isEmpty_iff.mp h]; rfl
    · rw [if_neg h]; simp
  | cons r rs ih =>
    intro cur idx
    rw [splitGo]
    by_cases hd : r.depth = 0
    · rw [if_pos hd]
      by_cases hc : cur.isEmpty = true
      · rw [if_pos hc, ih (cur ++ [r]) idx]
        rw [List.length_append]
        simp only [List.length_cons, List.length_nil]
        omega
      · rw [if_neg hc]
        have hstop : ¬stopAfter none (idx + 1) = true := by
          rw [stopAfter]; exact Bool.false_ne_true
        rw [if_neg hstop, List.map_cons, List.sum_cons, ih [r] (idx + 1)]
        simp only [List.length_cons, List.length_nil]
        omega
    · rw [if_neg hd, ih (cur ++ [r]) idx, List.length_append]
      simp only [List.length_cons, List.length_nil]
      omega

theorem splitGo_groups :
    ∀ rows cur idx,
      ((cur = [] ∧ (rows = [] ∨ ∃ r0 t, rows = r0 :: t ∧ r0.depth = 0)) ∨
        GoodGroup cur) →
      ∀ g ∈ splitGo none rows cur idx, GoodGroup g.rows := by
  intro rows
  induction rows with
  | nil =>
    intro cur idx hinv g hg
    rw [splitGo] at hg
    by_cases h : cur.isEmpty = true
    · rw [if_pos h] at hg; cases hg
    · rw [if_neg h] at hg
      rcases hinv with ⟨hc, _⟩ | hgood
      · exact absurd (by rw [hc]; rfl) h
      · rcases List.mem_singleton.mp hg with rfl
        exact hgood
  | cons r rs ih =>
    intro cur idx hinv g hg
    rw [splitGo] at hg
    by_cases hd : r.depth = 0
    · rw [if_pos hd] at hg
      by_cases hc : cur.isEmpty = true
      · rw [if_pos hc] at hg
        refine ih _ _ ?_ g hg
        right
        refine ⟨r, [], ?_, hd, by intro x hx; cases hx⟩
        rw [List.isEmpty_iff.mp hc]; rfl
      · rw [if_neg hc] at hg
        have hgood : GoodGroup cur := by
          rcases hinv with ⟨hce, _⟩ | hgood
          · exact absurd (by rw [hce]; rfl) hc
          · exact hgood
        have hstop : ¬stopAfter none (idx + 1) = true := by
          rw [stopAfter]; exact Bool.false_ne_true
        rw [if_neg hstop] at hg
        rcases List.mem_cons.mp hg with rfl | hg2
        · exact hgood
        · refine ih _ _ ?_ g hg2
          right
          exact ⟨r, [], rfl, hd, by intro x hx; cases hx⟩
    · rw [if_neg hd] at hg
      refine ih _ _ ?_ g hg
      right
      rcases hinv with ⟨hce, hh⟩ | hgood
      · exfalso
        cases hh with
        | inl h0 => exact List.noConfusion h0
        | inr hex =>
          obtain ⟨r0, t, heq, h0⟩ := hex
          rw [List.cons.injEq] at heq
          exact hd (by rw [heq.1]; exact h0)
      · obtain ⟨r0, t, heq, h0, ht⟩ := hgood
        refine ⟨r0, t ++ [r], by rw [heq]; rfl, h0, ?_⟩
        intro x hx
        rcases List.mem_append.mp hx with hx1 | hx2
        · exact ht x hx1
        · rcases List.mem_singleton.mp hx2 with rfl
          exact hd

theorem splitGo_rows_sub :
    ∀ rows cur idx, ∀ g ∈ splitGo none rows cur idx, ∀ r ∈ g.rows,
      r ∈ cur ∨ r ∈ rows := by
  intro rows
  induction rows with
  | nil =>
    intro cur idx g hg r hr
    rw [splitGo] at hg
    by_cases h : cur.isEmpty = true
    · rw [if_pos h] at hg; cases hg
    · rw [if_neg h] at hg
      rcases List.mem_singleton.mp hg with rfl
      exact Or.inl hr
  | cons x rs ih =>
    intro cur idx g hg r hr
    rw [splitGo] at hg
    by_cases hd : x.depth = 0
    · rw [if_pos hd] at hg
      by_cases hc : cur.isEmpty = true
      · rw [if_pos hc] at hg
        rcases ih (cur ++ [x]) idx g hg r hr with h1 | h2
        · rcases List.mem_append.mp h1 with h3 | h4
          · exact Or.inl h3
          · exact Or.inr (List.mem_cons.mpr (Or.inl (List.mem_singleton.mp h4)))
        · exact Or.inr (List.mem_cons.mpr (Or.inr h2))
      · rw [if_neg hc] at hg
        have hstop : ¬stopAfter none (idx + 1) = true := by
          rw [stopAfter]; exact Bool.false_ne_true
        rw [if_neg hstop] at hg
        rcases List.mem_cons.mp hg with rfl | hg2
        · exact Or.inl hr
        · rcases ih [x] (idx + 1) g hg2 r hr with h1 | h2
          · exact Or.inr (List.mem_cons.mpr (Or.inl (List.mem_singleton.mp h1)))
          · exact Or.inr (List.mem_cons.mpr (Or.inr h2))
    · rw [if_neg hd] at hg
      rcases ih (cur ++ [x]) idx g hg r hr with h1 | h2
      · rcases List.mem_append.mp h1 with h3 | h4
        · exact Or.inl h3
        · exact Or.inr (List.mem_cons.mpr (Or.inl (List.mem_singleton.mp h4)))
      · exact Or.inr (List.mem_cons.mpr (Or.inr h2))

end Xperf

/-! ### Lemmas about the interval-containment builder -/

namespace UT

theorem takeWhile_nil_of_head_false {α : Type} {p : α → Bool} {x : α} {l : List α}
    (h : p x = false) : (x :: l).takeWhile p = [] := by
  simp [List.takeWhile_cons, h]

theorem bisectLeft_map (fs : Int) (l : List UEvent) :
    bisectLeft (l.map (fun e => e.start)) fs =
      (l.takeWhile (fun e => decide (e.start < fs))).length := by
  rw [bisectLeft, List.takeWhile_map, List.length_map]
  rfl

theorem bisectRight_map (fe : Int) (l : List UEvent) :
    bisectRight (l.map (fun e => e.start)) fe =
      (l.takeWhile (fun e => decide (e.start ≤ fe))).length := by
  rw [bisectRight, List.takeWhile_map, List.length_map]
  rfl

theorem slice_aux (fs fe : Int) (hle : fs ≤ fe) :
    ∀ l : List UEvent, List.Pairwise (fun a b => a.start ≤ b.start) l →
      (l.drop ((l.takeWhile (fun e => decide (e.start < fs))).length)).take
          ((l.takeWhile (fun e => decide (e.start ≤ fe))).length -
            (l.takeWhile (fun e => decide (e.start < fs))).length) =
        List.filter (fun e => decide (fs ≤ e.start) && decide (e.start ≤ fe)) l := by
  intro l
  induction l with
  | nil => intro _; rfl
  | cons e rest ih =>
    intro hp
    rw [List.pairwise_cons] at hp
    obtain ⟨hall, hrest⟩ := hp
    by_cases h1 : e.start < fs
    · have hd1 : decide (e.start < fs) = true := decide_eq_true h1
      have hd2 : decide (e.start ≤ fe) = true :=
        decide_eq_true (le_trans (le_of_lt h1) hle)
      have hq : ¬(decide (fs ≤ e.start) && decide (e.start ≤ fe)) = true := by
        have h0 : decide (fs ≤ e.start) = false := decide_eq_false (not_le.mpr h1)
        rw [h0, Bool.false_and]; exact Bool.false_ne_true
      have tw1 : List.takeWhile (fun x : UEvent => decide (x.start < fs)) (e :: rest)
          = e :: List.takeWhile (fun x : UEvent => decide (x.start < fs)) rest :=
        List.takeWhile_cons_of_pos hd1
      have tw2 : List.takeWhile (fun x : UEvent => decide (x.start ≤ fe)) (e :: rest)
          = e :: List.takeWhile (fun x : UEvent => decide (x.start ≤ fe)) rest :=
        List.takeWhile_cons_of_pos hd2
      have fq : List.filter
            (fun x : UEvent => decide (fs ≤ x.start) && decide (x.start ≤ fe)) (e :: rest)
          = List.filter
            (fun x : UEvent => decide (fs ≤ x.start) && decide (x.start ≤ fe)) rest :=
        List.filter_cons_of_neg hq
      rw [tw1, tw2, fq, List.length_cons, List.length_cons,
        List.drop_succ_cons, Nat.succ_sub_succ]
      exact ih hrest
    · have hd1 : ¬decide (e.start < fs) = true := by
        rw [decide_eq_false h1]; exact Bool.false_ne_true
      have hge : fs ≤ e.start := not_lt.mp h1
      have tw1 : List.takeWhile (fun x : UEvent => decide (x.start < fs)) (e :: rest)
          = [] :=
        List.takeWhile_cons_of_neg hd1
      have hrestnil :
          rest.takeWhile (fun x : UEvent => decide (x.start < fs)) = [] := by
        cases rest with
        | nil => rfl
        | cons y ys =>
          refine takeWhile_nil_of_head_false ?_
          exact decide_eq_false (not_lt.mpr (le_trans hge (hall y (by simp))))
      by_cases h3 : e.start ≤ fe
      · have hd2 : decide (e.start ≤ fe) = true := decide_eq_true h3
        have hq : (decide (fs ≤ e.start) && decide (e.start ≤ fe)) = true := by
          rw [decide_eq_true hge, hd2]; rfl
        have tw2 : List.takeWhile (fun x : UEvent => decide (x.start ≤ fe)) (e :: rest)
            = e :: List.takeWhile (fun x : UEvent => decide (x.start ≤ fe)) rest :=
          List.takeWhile_cons_of_pos hd2
        have fq : List.filter
              (fun x : UEvent => decide (fs ≤ x.start) && decide (x.start ≤ fe)) (e :: rest)
            = e :: List.filter
              (fun x : UEvent => decide (fs ≤ x.start) && decide (x.start ≤ fe)) rest :=
          List.filter_cons_of_pos hq
        have ih2 := ih hrest
        rw [hrestnil, List.length_nil, List.drop_zero, Nat.sub_zero] at ih2
        rw [tw1, tw2, fq, List.length_cons, List.length_nil,
          List.drop_zero, Nat.sub_zero, List.take_succ_cons, ih2]
      · have hd2 : ¬decide (e.start ≤ fe) = true := by
          rw [decide_eq_false h3]; exact Bool.false_ne_true
        have hq : ¬(decide (fs ≤ e.start) && decide (e.start ≤ fe)) = true := by
          rw [decide_eq_false h3, Bool.and_false]; exact Bool.false_ne_true
        have tw2 : List.takeWhile (fun x : UEvent => decide (x.start ≤ fe)) (e :: rest)
            = [] :=
          List.takeWhile_cons_of_neg hd2
        have fq : List.filter
              (fun x : UEvent => decide (fs ≤ x.start) && decide (x.start ≤ fe)) (e :: rest)
            = List.filter
              (fun x : UEvent => decide (fs ≤ x.start) && decide (x.start ≤ fe)) rest :=
          List.filter_cons_of_neg hq
        rw [tw1, tw2, fq, List.length_nil, Nat.sub_zero, List.take_zero]
        have hfe : fe < e.start := not_le.mp h3
        symm
        rw [List.filter_eq_nil_iff]
        intro x hx
        have hxgt : fe < x.start := lt_of_lt_of_le hfe (hall x hx)
        simp [decide_eq_false (not_le.mpr hxgt)]

theorem candidateSlice_eq_filter (fs fe : Int) (l : List UEvent) (hle : fs ≤ fe)
    (hsort : List.Pairwise (fun a b => a.start ≤ b.start) l) :
    candidateSlice fs fe l =
      List.filter (fun e => decide (fs ≤ e.start) && decide (e.start ≤ fe)) l := by
  simp only [candidateSlice]
  rw [bisectLeft_map, bisectRight_map]
  exact slice_aux fs fe hle l hsort

theorem attachedChildren_mem (fs fe : Int) (l : List UEvent) (e : UEvent)
    (hle : fs ≤ fe)
    (hsort : List.Pairwise (fun a b => a.start ≤ b.start) l) :
    e ∈ attachedChildren fs fe l ↔
      e ∈ l ∧ fs ≤ e.start ∧ e.start ≤ fe ∧ e.stop < fe := by
  unfold attachedChildren
  rw [candidateSlice_eq_filter fs fe l hle hsort, List.filter_filter, List.mem_filter]
  constructor
  · rintro ⟨hmem, hb⟩
    simp only [Bool.and_eq_true, decide_eq_true_eq] at hb
    exact ⟨hmem, hb.2.1, hb.2.2, hb.1⟩
  · rintro ⟨hmem, hb1, hb2, hb3⟩
    refine ⟨hmem, ?_⟩
    simp only [Bool.and_eq_true, decide_eq_true_eq]
    exact ⟨hb3, hb1, hb2⟩

end UT


/-! ### Lemmas about the reorder buffer and the batch scheduler -/

namespace Xperf

theorem lookupBuf_none_of_keys_gt (t : Nat) :
    ∀ buf : List BufEntry, (∀ p ∈ buf, t < p.1) → lookupBuf buf t = none := by
  intro buf
  induction buf with
  | nil => intro _; rfl
  | cons e rest ih =>
    intro h
    match e with
    | (k, v) =>
      have hk : t < k := h (k, v) (by simp)
      rw [lookupBuf, if_neg (by omega)]
      exact ih (fun p hp => h p (by simp [hp]))

theorem insertSorted_append_of_gt (k : Nat) (v : Option TreeNode) :
    ∀ buf : List BufEntry, (∀ p ∈ buf, p.1 < k) →
      insertSorted k v buf = buf ++ [(k, v)] := by
  intro buf
  induction buf with
  | nil => intro _; rfl
  | cons e rest ih =>
    intro h
    match e with
    | (k2, v2) =>
      have hk : k2 < k := h (k2, v2) (by simp)
      rw [insertSorted, if_neg (by omega), if_neg (by omega), List.cons_append,
        ih (fun p hp => h p (by simp [hp]))]

theorem insertSorted_comm (k1 k2 : Nat) (v1 v2 : Option TreeNode) (hne : k1 ≠ k2) :
    ∀ buf : List BufEntry,
      insertSorted k1 v1 (insertSorted k2 v2 buf) =
        insertSorted k2 v2 (insertSorted k1 v1 buf) := by
  intro buf
  induction buf with
  | nil =>
    rcases Nat.lt_or_ge k1 k2 with h | h
    · have ha : ¬k2 < k1 := by omega
      have hb : ¬k2 = k1 := by omega
      simp [insertSorted, h, ha, hb]
    · have h0 : k2 < k1 := by omega
      have ha : ¬k1 < k2 := by omega
      have hb : ¬k1 = k2 := by omega
      simp [insertSorted, h0, ha, hb]
  | cons e rest ih =>
    match e with
    | (k, v) =>
      rcases Nat.lt_trichotomy k1 k with h1 | h1 | h1 <;>
        rcases Nat.lt_trichotomy k2 k with h2 | h2 | h2
      · rcases Nat.lt_or_ge k1 k2 with h3 | h3
        · have ha : ¬k2 < k1 := by omega
          have hb : ¬k2 = k1 := by omega
          simp [insertSorted, h1, h2, h3, ha, hb]
        · have h4 : k2 < k1 := by omega
          have ha : ¬k1 < k2 := by omega
          have hb : ¬k1 = k2 := by omega
          simp [insertSorted, h1, h2, h4, ha, hb]
      · have ha : k1 < k2 := by omega
        have hb : ¬k2 < k1 := by omega
        have hc : ¬k2 = k1 := by omega
        have hd : ¬k < k1 := by omega
        have he : ¬k = k1 := by omega
        simp [insertSorted, h1, h2, ha, hb, hc, hd, he]
      · have ha : ¬k2 < k := by omega
        have hb : ¬k2 = k := by omega
        have hc : ¬k2 < k1 := by omega
        have hd : ¬k2 = k1 := by omega
        simp [insertSorted, h1, h2, ha, hb, hc, hd]
      · have ha : ¬k1 < k := by omega
        have hb : k2 < k1 := by omega
        have hc : ¬k < k2 := by omega
        have hd : ¬k = k2 := by omega
        simp [insertSorted, h1, h2, ha, hb, hc, hd]
      · exact absurd (by omega : k1 = k2) hne
      · have ha : ¬k1 < k := by omega
        have hb : ¬k2 < k := by omega
        have hc : ¬k2 = k := by omega
        have hd : ¬k2 < k1 := by omega
        have he : ¬k2 = k1 := by omega
        simp [insertSorted, h1, h2, ha, hb, hc, hd, he]
      · have ha : ¬k1 < k := by omega
        have hb : ¬k1 = k := by omega
        have hc : k2 < k1 := by omega
        have hd : ¬k1 < k2 := by omega
        have he : ¬k1 = k2 := by omega
        simp [insertSorted, h1, h2, ha, hb, hc, hd, he]
      · have ha : ¬k1 < k := by omega
        have hb : ¬k1 = k := by omega
        have hc : ¬k2 < k := by omega
        have hd : ¬k1 < k2 := by omega
        have he : ¬k1 = k2 := by omega
        simp [insertSorted, h1, h2, ha, hb, hc, hd, he]
      · have ha : ¬k1 < k := by omega
        have hb : ¬k1 = k := by omega
        have hc : ¬k2 < k := by omega
        have hd : ¬k2 = k := by omega
        simp [insertSorted, h1, h2, ha, hb, hc, hd, ih]

end Xperf

namespace Xperf

theorem foldl_trackCollect_next (l : List ProcessedFrame) :
    ∀ st : RunState, (l.foldl trackCollect st).nextToWrite = st.nextToWrite := by
  induction l with
  | nil => intro st; rfl
  | cons pf rest ih => intro st; rw [List.foldl_cons, ih]; rfl

theorem foldl_trackCollect_written (l : List ProcessedFrame) :
    ∀ st : RunState, (l.foldl trackCollect st).written = st.written := by
  induction l with
  | nil => intro st; rfl
  | cons pf rest ih => intro st; rw [List.foldl_cons, ih]; rfl

theorem foldl_trackCollect_frameCount (l : List ProcessedFrame) :
    ∀ st : RunState, (l.foldl trackCollect st).frameCount = st.frameCount + l.length := by
  induction l with
  | nil => intro st; rfl
  | cons pf rest ih =>
    intro st
    rw [List.foldl_cons, ih]
    show st.frameCount + 1 + rest.length = _
    rw [List.length_cons]
    omega

theorem foldl_trackCollect_totalNodes (l : List ProcessedFrame) :
    ∀ st : RunState, (l.foldl trackCollect st).totalNodes =
      st.totalNodes + (l.map (fun pf => pf.originalNodes)).sum := by
  induction l with
  | nil => intro st; simp
  | cons pf rest ih =>
    intro st
    rw [List.foldl_cons, ih]
    show st.totalNodes + pf.originalNodes + _ = _
    rw [List.map_cons, List.sum_cons]
    omega

theorem foldl_trackCollect_filteredNodes (l : List ProcessedFrame) :
    ∀ st : RunState, (l.foldl trackCollect st).filteredNodes =
      st.filteredNodes + (l.map (fun pf => pf.filteredNodes)).sum := by
  induction l with
  | nil => intro st; simp
  | cons pf rest ih =>
    intro st
    rw [List.foldl_cons, ih]
    show st.filteredNodes + pf.filteredNodes + _ = _
    rw [List.map_cons, List.sum_cons]
    omega

theorem foldl_trackCollect_filteredFrames (l : List ProcessedFrame) :
    ∀ st : RunState, (l.foldl trackCollect st).filteredFrames =
      st.filteredFrames + (l.filter (fun pf => !pf.included)).length := by
  induction l with
  | nil => intro st; rfl
  | cons pf rest ih =>
    intro st
    rw [List.foldl_cons, ih]
    by_cases hinc : pf.included = true
    · show st.filteredFrames + (if pf.included then 0 else 1) + _ = _
      rw [List.filter_cons]
      simp [hinc]
    · show st.filteredFrames + (if pf.included then 0 else 1) + _ = _
      rw [List.filter_cons]
      simp only [Bool.not_eq_true] at hinc
      simp [hinc]
      omega

theorem foldl_trackCollect_buffer (l : List ProcessedFrame) :
    ∀ st : RunState, (l.foldl trackCollect st).buffer = bufInsertAll st.buffer l := by
  induction l with
  | nil => intro st; rfl
  | cons pf rest ih => intro st; rw [List.foldl_cons, ih]; rfl

theorem foldl_trackCollect_perm {l l' : List ProcessedFrame} (hp : l.Perm l')
    (hinj : ∀ x ∈ l, ∀ y ∈ l, x.frameIndex = y.frameIndex → x = y) (st : RunState) :
    l.foldl trackCollect st = l'.foldl trackCollect st := by
  refine hp.foldl_eq' ?_ st
  intro x hx y hy st0
  by_cases hxy : x = y
  · rw [hxy]
  · have hne : x.frameIndex ≠ y.frameIndex := fun h => hxy (hinj x hx y hy h)
    obtain ⟨b0, n0, w0, fc0, tn0, fn0, ff0⟩ := st0
    simp only [trackCollect]
    rw [RunState.mk.injEq]
    refine ⟨?_, rfl, rfl, rfl, by omega, by omega, ?_⟩
    · by_cases hx1 : x.included = true <;> by_cases hy1 : y.included = true <;>
        simp [hx1, hy1]
      exact insertSorted_comm y.frameIndex x.frameIndex y.frameDict x.frameDict
        (Ne.symm hne) b0
    · by_cases hx1 : x.included = true <;> by_cases hy1 : y.included = true <;>
        simp [hx1, hy1]

theorem canonicalWritten_cons_inc (pf : ProcessedFrame) (rest : List ProcessedFrame)
    (h : pf.included = true) :
    canonicalWritten (pf :: rest) = entryOf pf :: canonicalWritten rest := by
  simp [canonicalWritten, List.filter_cons, h]

theorem canonicalWritten_cons_exc (pf : ProcessedFrame) (rest : List ProcessedFrame)
    (h : pf.included = false) :
    canonicalWritten (pf :: rest) = canonicalWritten rest := by
  simp [canonicalWritten, List.filter_cons, h]

theorem canonicalWritten_append (a b : List ProcessedFrame) :
    canonicalWritten (a ++ b) = canonicalWritten a ++ canonicalWritten b := by
  simp [canonicalWritten, List.filter_append, List.map_append]

theorem canonicalWritten_mem {p : BufEntry} {l : List ProcessedFrame}
    (h : p ∈ canonicalWritten l) :
    ∃ pf ∈ l, pf.included = true ∧ p = entryOf pf := by
  rw [canonicalWritten] at h
  obtain ⟨pf, hmem, hep⟩ := List.mem_map.mp h
  obtain ⟨hl, hinc⟩ := List.mem_filter.mp hmem
  exact ⟨pf, hl, hinc, hep.symm⟩

theorem canonicalWritten_keys_ge {l : List ProcessedFrame} {s : Nat}
    (hidx : l.map (fun pf => pf.frameIndex) = List.range' s l.length) :
    ∀ p ∈ canonicalWritten l, s ≤ p.1 := by
  intro p hp
  obtain ⟨pf, hmem, _, hep⟩ := canonicalWritten_mem hp
  have : pf.frameIndex ∈ l.map (fun pf => pf.frameIndex) :=
    List.mem_map.mpr ⟨pf, hmem, rfl⟩
  rw [hidx] at this
  have hb := (List.mem_range'_1.mp this).1
  rw [hep]
  exact hb

theorem canonicalWritten_keys_lt {l : List ProcessedFrame} {s : Nat}
    (hidx : l.map (fun pf => pf.frameIndex) = List.range' s l.length) :
    ∀ p ∈ canonicalWritten l, p.1 < s + l.length := by
  intro p hp
  obtain ⟨pf, hmem, _, hep⟩ := canonicalWritten_mem hp
  have : pf.frameIndex ∈ l.map (fun pf => pf.frameIndex) :=
    List.mem_map.mpr ⟨pf, hmem, rfl⟩
  rw [hidx] at this
  have hb := (List.mem_range'_1.mp this).2
  rw [hep]
  exact hb

theorem bufInsertAll_canonical :
    ∀ (l : List ProcessedFrame) (buf : List BufEntry),
      (∀ p ∈ buf, ∀ pf ∈ l, p.1 < pf.frameIndex) →
      List.Pairwise (fun a b => a.frameIndex < b.frameIndex) l →
      bufInsertAll buf l = buf ++ canonicalWritten l := by
  intro l
  induction l with
  | nil => intro buf _ _; simp [bufInsertAll, canonicalWritten]
  | cons pf rest ih =>
    intro buf hlt hpw
    rw [List.pairwise_cons] at hpw
    obtain ⟨hpf, hrest⟩ := hpw
    by_cases hinc : pf.included = true
    · have hstep : bufInsertAll buf (pf :: rest) =
          bufInsertAll (insertSorted pf.frameIndex pf.frameDict buf) rest := by
        rw [bufInsertAll, List.foldl_cons, if_pos hinc]; rfl
      rw [hstep,
        insertSorted_append_of_gt pf.frameIndex pf.frameDict buf
          (fun p hp => hlt p hp pf (by simp)),
        ih (buf ++ [(pf.frameIndex, pf.frameDict)]) ?_ hrest,
        canonicalWritten_cons_inc pf rest hinc, List.append_assoc]
      · rfl
      · intro p hp pf2 hpf2
        rcases List.mem_append.mp hp with h1 | h2
        · exact hlt p h1 pf2 (by simp [hpf2])
        · rcases List.mem_singleton.mp h2 with rfl
          exact hpf pf2 hpf2
    · have hstep : bufInsertAll buf (pf :: rest) = bufInsertAll buf rest := by
        rw [bufInsertAll, List.foldl_cons, if_neg hinc]; rfl
      rw [hstep, ih buf (fun p hp pf2 hpf2 => hlt p hp pf2 (by simp [hpf2])) hrest,
        canonicalWritten_cons_exc pf rest (by simpa using hinc)]

end Xperf

namespace Xperf

theorem range'_drop : ∀ (n s m : Nat), (List.range' s n).drop m = List.range' (s + m) (n - m) := by
  intro n
  induction n with
  | zero => intro s m; simp
  | succ n ih =>
    intro s m
    match m with
    | 0 => simp
    | m + 1 =>
      rw [List.range'_succ, List.drop_succ_cons, ih (s + 1) m, Nat.succ_sub_succ]
      have h1 : s + 1 + m = s + (m + 1) := by omega
      rw [h1]

theorem takeWhile_length_le {α : Type} (p : α → Bool) :
    ∀ l : List α, (l.takeWhile p).length ≤ l.length := by
  intro l
  induction l with
  | nil => exact Nat.le_refl 0
  | cons x xs ih =>
    rw [List.takeWhile_cons]
    by_cases h : p x = true
    · rw [if_pos h, List.length_cons, List.length_cons]; omega
    · rw [if_neg h]; simp

theorem takeWhile_append_lt {α : Type} (p : α → Bool) :
    ∀ (a b : List α), (a.takeWhile p).length < a.length →
      (a ++ b).takeWhile p = a.takeWhile p := by
  intro a
  induction a with
  | nil => intro b h; simp at h
  | cons x xs ih =>
    intro b h
    rw [List.cons_append, List.takeWhile_cons, List.takeWhile_cons]
    by_cases hx : p x = true
    · rw [if_pos hx, if_pos hx, ih b ?_]
      rw [List.takeWhile_cons, if_pos hx] at h
      simp only [List.length_cons] at h
      omega
    · rw [if_neg hx, if_neg hx]

theorem takeWhile_append_all {α : Type} (p : α → Bool) :
    ∀ (a b : List α), (∀ x ∈ a, p x = true) →
      (a ++ b).takeWhile p = a ++ b.takeWhile p := by
  intro a
  induction a with
  | nil => intro b _; rfl
  | cons x xs ih =>
    intro b h
    rw [List.cons_append, List.takeWhile_cons, if_pos (h x (by simp)),
      ih b (fun y hy => h y (by simp [hy])), List.cons_append]

theorem takeWhile_len_all {α : Type} (p : α → Bool) :
    ∀ l : List α, (l.takeWhile p).length = l.length → ∀ x ∈ l, p x = true := by
  intro l
  induction l with
  | nil => intro _ x hx; cases hx
  | cons y ys ih =>
    intro h x hx
    rw [List.takeWhile_cons] at h
    by_cases hy : p y = true
    · rw [if_pos hy] at h
      simp only [List.length_cons] at h
      rcases List.mem_cons.mp hx with rfl | hx2
      · exact hy
      · exact ih (by omega) x hx2
    · rw [if_neg hy] at h
      simp at h
  
theorem takeWhile_all_eq {α : Type} (p : α → Bool) :
    ∀ l : List α, (∀ x ∈ l, p x = true) → l.takeWhile p = l := by
  intro l
  induction l with
  | nil => intro _; rfl
  | cons y ys ih =>
    intro h
    rw [List.takeWhile_cons, if_pos (h y (by simp)), ih (fun x hx => h x (by simp [hx]))]

theorem drop_takeWhile_len {α : Type} (p : α → Bool) :
    ∀ l : List α, l.drop ((l.takeWhile p).length) = l.dropWhile p := by
  intro l
  induction l with
  | nil => rfl
  | cons x xs ih =>
    rw [List.takeWhile_cons, List.dropWhile_cons]
    by_cases h : p x = true
    · rw [if_pos h, if_pos h, List.length_cons, List.drop_succ_cons, ih]
    · rw [if_neg h, if_neg h, List.length_nil, List.drop_zero]

theorem dropWhile_head_exc {α : Type} (p : α → Bool) :
    ∀ (l : List α) (x : α) (xs : List α), l.dropWhile p = x :: xs → p x = false := by
  intro l
  induction l with
  | nil => intro x xs h; cases h
  | cons y ys ih =>
    intro x xs h
    rw [List.dropWhile_cons] at h
    by_cases hy : p y = true
    · rw [if_pos hy] at h
      exact ih x xs h
    · rw [if_neg hy] at h
      rw [List.cons.injEq] at h
      rw [← h.1]
      simpa using hy

theorem firstNI_le_length (l : List ProcessedFrame) : firstNI l ≤ l.length :=
  takeWhile_length_le _ l

theorem firstNI_cons_inc {pf : ProcessedFrame} (l : List ProcessedFrame)
    (h : pf.included = true) : firstNI (pf :: l) = firstNI l + 1 := by
  rw [firstNI, firstNI, List.takeWhile_cons, if_pos h, List.length_cons]

theorem firstNI_cons_exc {pf : ProcessedFrame} (l : List ProcessedFrame)
    (h : pf.included = false) : firstNI (pf :: l) = 0 := by
  rw [firstNI, List.takeWhile_cons, if_neg (by simp [h]), List.length_nil]

theorem drainBuf_none (buf : List BufEntry) (t : Nat)
    (h : lookupBuf buf t = none) : drainBuf buf t = (buf, t, []) := by
  match buf with
  | [] => rfl
  | e :: rest =>
    rw [drainBuf, List.length_cons, drainF, h]

theorem drainBuf_canonical :
    ∀ (l : List ProcessedFrame) (t : Nat),
      l.map (fun pf => pf.frameIndex) = List.range' t l.length →
      drainBuf (canonicalWritten l) t =
        (canonicalWritten (l.drop (firstNI l)), t + firstNI l,
          (l.takeWhile (fun pf => pf.included)).map entryOf) := by
  intro l
  induction l with
  | nil =>
    intro t _
    show drainBuf [] t = _
    rw [drainBuf]
    show ([], t, []) = _
    simp [canonicalWritten, firstNI]
  | cons pf rest ih =>
    intro t hidx
    rw [List.map_cons, List.length_cons, List.range'_succ, List.cons.injEq] at hidx
    obtain ⟨hpft, hrest⟩ := hidx
    by_cases hinc : pf.included = true
    · rw [canonicalWritten_cons_inc pf rest hinc]
      have hkeys : ∀ p ∈ canonicalWritten rest, t + 1 ≤ p.1 :=
        canonicalWritten_keys_ge hrest
      have herase : eraseBuf (entryOf pf :: canonicalWritten rest) t =
          canonicalWritten rest := by
        rw [eraseBuf, List.filter_cons]
        have hh : (((entryOf pf).1 != t)) = false := by
          rw [entryOf, hpft]; simp
        rw [hh]
        simp only [Bool.false_eq_true, if_false]
        rw [List.filter_eq_self]
        intro p hp
        have := hkeys p hp
        simp only [bne_iff_ne]
        omega
      have hlook : lookupBuf (entryOf pf :: canonicalWritten rest) t =
          some pf.frameDict := by
        rw [entryOf, lookupBuf, if_pos hpft]
      have ihr := ih (t + 1) hrest
      rw [drainBuf] at ihr
      rw [drainBuf, List.length_cons, drainF, hlook, herase, ihr]
      rw [firstNI_cons_inc rest hinc, List.drop_succ_cons,
        List.takeWhile_cons, if_pos hinc, List.map_cons]
      have harith : t + (firstNI rest + 1) = t + 1 + firstNI rest := by omega
      rw [harith]
      simp [entryOf, hpft]
    · have hexc : pf.included = false := by simpa using hinc
      rw [canonicalWritten_cons_exc pf rest hexc]
      have hkeys : ∀ p ∈ canonicalWritten rest, t + 1 ≤ p.1 :=
        canonicalWritten_keys_ge hrest
      rw [drainBuf_none _ t (lookupBuf_none_of_keys_gt t _ (fun p hp => by
        have := hkeys p hp; omega))]
      rw [firstNI_cons_exc rest hexc, List.drop_zero,
        canonicalWritten_cons_exc pf rest hexc, List.takeWhile_cons,
        if_neg (by simp [hexc]), List.map_nil]
      simp

theorem chunks_nil {α : Type} (b : Nat) : chunks b ([] : List α) = [] := by
  unfold chunks
  split <;> rfl

theorem chunksF_nil {α : Type} (b : Nat) : ∀ fuel, chunksF fuel b ([] : List α) = [] := by
  intro fuel
  match fuel with
  | 0 => rfl
  | fuel + 1 => rfl

theorem chunksF_congr {α : Type} (b : Nat) (hb : 1 ≤ b) :
    ∀ (f1 : Nat) (f2 : Nat) (l : List α), l.length ≤ f1 → l.length ≤ f2 →
      chunksF f1 b l = chunksF f2 b l := by
  intro f1
  induction f1 with
  | zero =>
    intro f2 l h1 _
    have hl : l = [] := List.length_eq_zero.mp (by omega)
    rw [hl, chunksF_nil, chunksF_nil]
  | succ f1 ih =>
    intro f2 l h1 h2
    match l with
    | [] => rw [chunksF_nil, chunksF_nil]
    | x :: xs =>
      match f2 with
      | 0 => exact absurd h2 (by simp)
      | f2 + 1 =>
        rw [chunksF, chunksF]
        have hlen : ((x :: xs).drop b).length ≤ f1 := by
          rw [List.length_drop, List.length_cons]
          rw [List.length_cons] at h1
          omega
        have hlen2 : ((x :: xs).drop b).length ≤ f2 := by
          rw [List.length_drop, List.length_cons]
          rw [List.length_cons] at h2
          omega
        rw [ih f2 _ hlen hlen2]

theorem chunks_cons {α : Type} (b : Nat) (hb : 1 ≤ b) (x : α) (xs : List α) :
    chunks b (x :: xs) = (x :: xs).take b :: chunks b ((x :: xs).drop b) := by
  unfold chunks
  rw [if_neg (by omega), if_neg (by omega), List.length_cons, chunksF]
  have hlen : ((x :: xs).drop b).length ≤ xs.length := by
    rw [List.length_drop, List.length_cons]
    omega
  rw [chunksF_congr b hb xs.length ((x :: xs).drop b).length _ hlen (Nat.le_refl _)]

end Xperf

namespace Xperf

theorem drainWrite_buffer (s : RunState) :
    (drainWrite s).buffer = (drainBuf s.buffer s.nextToWrite).1 := rfl

theorem drainWrite_next (s : RunState) :
    (drainWrite s).nextToWrite = (drainBuf s.buffer s.nextToWrite).2.1 := rfl

theorem drainWrite_written (s : RunState) :
    (drainWrite s).written = s.written ++ (drainBuf s.buffer s.nextToWrite).2.2 := rfl

theorem drainWrite_frameCount (s : RunState) :
    (drainWrite s).frameCount = s.frameCount := rfl

theorem drainWrite_totalNodes (s : RunState) :
    (drainWrite s).totalNodes = s.totalNodes := rfl

theorem drainWrite_filteredNodes (s : RunState) :
    (drainWrite s).filteredNodes = s.filteredNodes := rfl

theorem drainWrite_filteredFrames (s : RunState) :
    (drainWrite s).filteredFrames = s.filteredFrames := rfl

theorem map_idx_split (a b : List ProcessedFrame) (s : Nat)
    (h : (a ++ b).map (fun pf => pf.frameIndex) = List.range' s (a ++ b).length) :
    a.map (fun pf => pf.frameIndex) = List.range' s a.length ∧
      b.map (fun pf => pf.frameIndex) = List.range' (s + a.length) b.length := by
  rw [List.map_append, List.length_append] at h
  have hr := List.range'_append s a.length b.length 1
  rw [Nat.one_mul] at hr
  rw [Nat.add_comm a.length b.length, ← hr] at h
  have hlen : (a.map (fun pf => pf.frameIndex)).length =
      (List.range' s a.length).length := by
    rw [List.length_map, List.length_range']
  exact List.append_inj h hlen

theorem runBatch_inv (pre chunk completed : List ProcessedFrame) (st : RunState)
    (hperm : completed.Perm chunk)
    (hidx : (pre ++ chunk).map (fun pf => pf.frameIndex) =
      List.range' 0 (pre ++ chunk).length)
    (hinv : Inv pre st) :
    Inv (pre ++ chunk) (runBatch st completed) := by
  obtain ⟨hpre, hchunk⟩ := map_idx_split pre chunk 0 hidx
  rw [Nat.zero_add] at hchunk
  have hnodup : (chunk.map (fun pf => pf.frameIndex)).Nodup := by
    rw [hchunk]; exact List.nodup_range' _ _
  have hinj : ∀ x ∈ completed, ∀ y ∈ completed, x.frameIndex = y.frameIndex → x = y := by
    intro x hx y hy hxy
    exact List.inj_on_of_nodup_map hnodup (hperm.mem_iff.mp hx) (hperm.mem_iff.mp hy) hxy
  have hpw : List.Pairwise (fun a b : ProcessedFrame => a.frameIndex < b.frameIndex)
      chunk := by
    have hh := List.pairwise_lt_range' pre.length chunk.length 1
    rw [← hchunk] at hh
    exact List.pairwise_map.mp hh
  have hfold : completed.foldl trackCollect st = chunk.foldl trackCollect st :=
    foldl_trackCollect_perm hperm hinj st
  have he := firstNI_le_length pre
  have hdropmap : (pre.drop (firstNI pre)).map (fun pf => pf.frameIndex) =
      List.range' (firstNI pre) ((pre.drop (firstNI pre)).length) := by
    rw [List.map_drop, hpre, range'_drop, Nat.zero_add, List.length_drop]
  have hbufkeys : ∀ p ∈ st.buffer, p.1 < pre.length := by
    intro p hp
    rw [hinv.buffer] at hp
    have hk := canonicalWritten_keys_lt hdropmap p hp
    rw [List.length_drop] at hk
    omega
  have hchunkkeys : ∀ pf ∈ chunk, pre.length ≤ pf.frameIndex := by
    intro pf hpf
    have hm : pf.frameIndex ∈ chunk.map (fun pf => pf.frameIndex) :=
      List.mem_map.mpr ⟨pf, hpf, rfl⟩
    rw [hchunk] at hm
    exact (List.mem_range'_1.mp hm).1
  have hmidbuf : (chunk.foldl trackCollect st).buffer =
      canonicalWritten ((pre ++ chunk).drop (firstNI pre)) := by
    rw [foldl_trackCollect_buffer,
      bufInsertAll_canonical chunk st.buffer
        (fun p hp pf hpf => lt_of_lt_of_le (hbufkeys p hp) (hchunkkeys pf hpf)) hpw,
      hinv.buffer, ← canonicalWritten_append,
      List.drop_append_of_le_length he]
  have hmidnext : (chunk.foldl trackCollect st).nextToWrite = firstNI pre := by
    rw [foldl_trackCollect_next, hinv.next]
  have hmidwritten : (chunk.foldl trackCollect st).written =
      (pre.takeWhile (fun pf => pf.included)).map entryOf := by
    rw [foldl_trackCollect_written, hinv.written]
  rw [runBatch, hfold]
  rcases Nat.lt_or_ge (firstNI pre) pre.length with hlt | hge
  · -- the drain is blocked on the excluded frame at position firstNI pre
    have hdw : pre.drop (firstNI pre) = pre.dropWhile (fun pf => pf.included) :=
      drop_takeWhile_len _ pre
    obtain ⟨pfE, restE, hdweq⟩ : ∃ pfE restE,
        pre.dropWhile (fun pf => pf.included) = pfE :: restE := by
      match hh : pre.dropWhile (fun pf => pf.included) with
      | [] =>
        exfalso
        have hcl := congrArg List.length hdw
        rw [hh, List.length_drop, List.length_nil, firstNI] at hcl
        rw [firstNI] at hlt
        omega
      | pfE :: restE => exact ⟨pfE, restE, hh⟩
    have hpfE : pfE.included = false := dropWhile_head_exc _ pre pfE restE hdweq
    have hrestE : restE = pre.drop (firstNI pre + 1) := by
      have hdd : pre.drop (firstNI pre + 1) = (pre.drop (firstNI pre)).drop 1 := by
        rw [List.drop_drop, Nat.add_comm]
      rw [hdd, hdw, hdweq]
      rfl
    have hsplit : (pre ++ chunk).drop (firstNI pre) = pfE :: (restE ++ chunk) := by
      rw [List.drop_append_of_le_length he, hdw, hdweq]
      rfl
    have hsplit2 : restE ++ chunk = (pre ++ chunk).drop (firstNI pre + 1) := by
      rw [List.drop_append_of_le_length (by omega : firstNI pre + 1 ≤ pre.length),
        hrestE]
    have htailmap : (restE ++ chunk).map (fun pf => pf.frameIndex) =
        List.range' (firstNI pre + 1) ((restE ++ chunk).length) := by
      rw [hsplit2, List.map_drop, hidx, range'_drop, Nat.zero_add, List.length_drop]
    have hkeys2 : ∀ p ∈ canonicalWritten ((pre ++ chunk).drop (firstNI pre)),
        firstNI pre < p.1 := by
      intro p hp
      rw [hsplit, canonicalWritten_cons_exc pfE _ hpfE] at hp
      have hge2 := canonicalWritten_keys_ge htailmap p hp
      omega
    have hlook : lookupBuf ((chunk.foldl trackCollect st).buffer) (firstNI pre) =
        none := by
      rw [hmidbuf]
      exact lookupBuf_none_of_keys_gt _ _ hkeys2
    have hdrain : drainBuf ((chunk.foldl trackCollect st).buffer)
        ((chunk.foldl trackCollect st).nextToWrite) =
        ((chunk.foldl trackCollect st).buffer, firstNI pre, []) := by
      rw [hmidnext]
      exact drainBuf_none _ _ hlook
    have hfni : firstNI (pre ++ chunk) = firstNI pre := by
      rw [firstNI, firstNI, takeWhile_append_lt _ pre chunk hlt]
    have htw : (pre ++ chunk).takeWhile (fun pf => pf.included) =
        pre.takeWhile (fun pf => pf.included) :=
      takeWhile_append_lt _ pre chunk hlt
    constructor
    · rw [drainWrite_written, hdrain, hmidwritten, htw, List.append_nil]
    · rw [drainWrite_next, hdrain, hfni]
    · rw [drainWrite_buffer, hdrain, hmidbuf, hfni]
    · rw [drainWrite_frameCount, foldl_trackCollect_frameCount, hinv.frameCount,
        List.length_append]
    · rw [drainWrite_totalNodes, foldl_trackCollect_totalNodes, hinv.totalNodes,
        List.map_append, List.sum_append]
    · rw [drainWrite_filteredNodes, foldl_trackCollect_filteredNodes,
        hinv.filteredNodes, List.map_append, List.sum_append]
    · rw [drainWrite_filteredFrames, foldl_trackCollect_filteredFrames,
        hinv.filteredFrames, List.filter_append, List.length_append]
  · -- every earlier frame was included: the drain consumes the chunk's prefix
    have heq : firstNI pre = pre.length := by omega
    have hall : ∀ pf ∈ pre, pf.included = true := by
      rw [firstNI] at heq
      exact takeWhile_len_all _ pre heq
    have hbufmid2 : (chunk.foldl trackCollect st).buffer = canonicalWritten chunk := by
      rw [hmidbuf, heq, List.drop_append_of_le_length (Nat.le_refl _),
        List.drop_length, List.nil_append]
    have hdrain := drainBuf_canonical chunk pre.length hchunk
    have hfni : firstNI (pre ++ chunk) = pre.length + firstNI chunk := by
      rw [firstNI, takeWhile_append_all _ pre chunk hall, List.length_append, firstNI]
    have htw : (pre ++ chunk).takeWhile (fun pf => pf.included) =
        pre ++ chunk.takeWhile (fun pf => pf.included) :=
      takeWhile_append_all _ pre chunk hall
    have htwpre : pre.takeWhile (fun pf => pf.included) = pre :=
      takeWhile_all_eq _ pre hall
    have hd0 : (drainBuf (canonicalWritten chunk) pre.length).1 =
        canonicalWritten (chunk.drop (firstNI chunk)) := by rw [hdrain]
    have hd1 : (drainBuf (canonicalWritten chunk) pre.length).2.1 =
        pre.length + firstNI chunk := by rw [hdrain]
    have hd2 : (drainBuf (canonicalWritten chunk) pre.length).2.2 =
        (chunk.takeWhile (fun pf => pf.included)).map entryOf := by rw [hdrain]
    constructor
    · rw [drainWrite_written, hmidwritten, hbufmid2, hmidnext, heq, hd2, htw,
        List.map_append, htwpre]
    · rw [drainWrite_next, hbufmid2, hmidnext, heq, hd1, hfni]
    · rw [drainWrite_buffer, hbufmid2, hmidnext, heq, hd0, hfni, List.drop_append]
    · rw [drainWrite_frameCount, foldl_trackCollect_frameCount, hinv.frameCount,
        List.length_append]
    · rw [drainWrite_totalNodes, foldl_trackCollect_totalNodes, hinv.totalNodes,
        List.map_append, List.sum_append]
    · rw [drainWrite_filteredNodes, foldl_trackCollect_filteredNodes,
        hinv.filteredNodes, List.map_append, List.sum_append]
    · rw [drainWrite_filteredFrames, foldl_trackCollect_filteredFrames,
        hinv.filteredFrames, List.filter_append, List.length_append]

end Xperf

namespace Xperf

theorem inv_init : Inv [] initState := by
  constructor <;> rfl

theorem runBatchesGo_inv (b : Nat) (hb : 1 ≤ b)
    (sched : Nat → List ProcessedFrame → List ProcessedFrame)
    (hs : ∀ j l, (sched j l).Perm l) :
    ∀ (n : Nat) (suffix pre : List ProcessedFrame) (j : Nat) (st : RunState),
      suffix.length ≤ n →
      (pre ++ suffix).map (fun pf => pf.frameIndex) =
        List.range' 0 (pre ++ suffix).length →
      Inv pre st →
      Inv (pre ++ suffix) (runBatchesGo sched j (chunks b suffix) st) := by
  intro n
  induction n with
  | zero =>
    intro suffix pre j st hlen hidx hinv
    have hnil : suffix = [] := List.length_eq_zero.mp (by omega)
    rw [hnil, chunks_nil, runBatchesGo, List.append_nil]
    exact hinv
  | succ n ih =>
    intro suffix pre j st hlen hidx hinv
    match suffix with
    | [] =>
      rw [chunks_nil, runBatchesGo, List.append_nil]
      exact hinv
    | x :: xs =>
      rw [chunks_cons b hb, runBatchesGo]
      have hsp : pre ++ (x :: xs) = (pre ++ (x :: xs).take b) ++ (x :: xs).drop b := by
        rw [List.append_assoc, List.take_append_drop]
      have hidx2 : ((pre ++ (x :: xs).take b) ++ (x :: xs).drop b).map
            (fun pf => pf.frameIndex) =
          List.range' 0 ((pre ++ (x :: xs).take b) ++ (x :: xs).drop b).length := by
        rw [← hsp]
        exact hidx
      have hinv2 : Inv (pre ++ (x :: xs).take b)
          (runBatch st (sched j ((x :: xs).take b))) :=
        runBatch_inv pre ((x :: xs).take b) (sched j ((x :: xs).take b)) st
          (hs j _) (map_idx_split _ _ 0 hidx2).1 hinv
      have hlen2 : ((x :: xs).drop b).length ≤ n := by
        rw [List.length_drop, List.length_cons]
        rw [List.length_cons] at hlen
        omega
      have hres := ih ((x :: xs).drop b) (pre ++ (x :: xs).take b) (j + 1)
        (runBatch st (sched j ((x :: xs).take b))) hlen2 hidx2 hinv2
      rw [hsp]
      exact hres

theorem resultsOf_idx (tp : String → Int → Nat → String) (pN : TreeNode → Bool)
    (pF : TreeNode → Nat → Bool) (mf : Option Nat) (rows : List Row) :
    (resultsOf tp pN pF mf rows).map (fun pf => pf.frameIndex) =
      List.range' 0 (resultsOf tp pN pF mf rows).length := by
  rw [resultsOf, List.map_map, List.length_map]
  have hcongr : (splitFrames mf rows).map
        ((fun pf => pf.frameIndex) ∘ processSingleFrame tp pN pF) =
      (splitFrames mf rows).map (fun fd => fd.frameIndex) :=
    List.map_congr_left (fun fd _ => processSingleFrame_frameIndex tp pN pF fd)
  rw [hcongr, splitFrames, splitGo_indices]

theorem insertLe_append {α : Type} (le : α → α → Bool) (x : α) :
    ∀ acc : List α, (∀ y ∈ acc, le y x = true) → insertLe le x acc = acc ++ [x] := by
  intro acc
  induction acc with
  | nil => intro _; rfl
  | cons y ys ih =>
    intro h
    rw [insertLe, if_pos (h y (by simp)), ih (fun z hz => h z (by simp [hz])),
      List.cons_append]

theorem pySorted_foldl {α : Type} (le : α → α → Bool) :
    ∀ (l acc : List α), List.Pairwise (fun a b => le a b = true) l →
      (∀ y ∈ acc, ∀ x ∈ l, le y x = true) →
      l.foldl (fun acc x => insertLe le x acc) acc = acc ++ l := by
  intro l
  induction l with
  | nil => intro acc _ _; rw [List.foldl_nil, List.append_nil]
  | cons x xs ih =>
    intro acc hpw hcross
    rw [List.pairwise_cons] at hpw
    obtain ⟨hx, hxs⟩ := hpw
    rw [List.foldl_cons, insertLe_append le x acc (fun y hy => hcross y hy x (by simp)),
      ih (acc ++ [x]) hxs ?_, List.append_assoc]
    · rfl
    · intro y hy z hz
      rcases List.mem_append.mp hy with h1 | h2
      · exact hcross y h1 z (by simp [hz])
      · rcases List.mem_singleton.mp h2 with rfl
        exact hx z hz

theorem pySorted_id (l : List Nat) (hsort : List.Pairwise (fun a b => a ≤ b) l) :
    pySorted (fun a b => decide (a ≤ b)) l = l := by
  rw [pySorted, pySorted_foldl (fun a b => decide (a ≤ b)) l []
    (hsort.imp (fun h => decide_eq_true h)) (fun y hy => by cases hy),
    List.nil_append]

theorem buf_recover :
    ∀ buf : List BufEntry, List.Pairwise (fun p q : BufEntry => p.1 < q.1) buf →
      (buf.map (fun p => p.1)).filterMap
        (fun k => (lookupBuf buf k).map (fun v => (k, v))) = buf := by
  intro buf
  induction buf with
  | nil => intro _; rfl
  | cons e rest ih =>
    intro hpw
    rw [List.pairwise_cons] at hpw
    obtain ⟨hkey, hrest⟩ := hpw
    match e with
    | (k, v) =>
      rw [List.map_cons, List.filterMap_cons]
      have hlk : lookupBuf ((k, v) :: rest) k = some v := by
        rw [lookupBuf, if_pos rfl]
      rw [hlk]
      show (k, v) :: _ = (k, v) :: rest
      have hcongr : (rest.map (fun p => p.1)).filterMap
            (fun k2 => (lookupBuf ((k, v) :: rest) k2).map (fun v2 => (k2, v2))) =
          (rest.map (fun p => p.1)).filterMap
            (fun k2 => (lookupBuf rest k2).map (fun v2 => (k2, v2))) := by
        refine List.filterMap_congr ?_
        intro k2 hk2
        obtain ⟨p, hp, hpk⟩ := List.mem_map.mp hk2
        have : k ≠ k2 := by
          have := hkey p hp
          omega
        rw [lookupBuf, if_neg this]
      rw [hcongr, ih hrest]

theorem canonicalWritten_keys_pairwise {l : List ProcessedFrame} {s : Nat}
    (hidx : l.map (fun pf => pf.frameIndex) = List.range' s l.length) :
    List.Pairwise (fun p q : BufEntry => p.1 < q.1) (canonicalWritten l) := by
  have hpw : List.Pairwise (fun a b : ProcessedFrame => a.frameIndex < b.frameIndex)
      l := by
    have hh := List.pairwise_lt_range' s l.length 1
    rw [← hidx] at hh
    exact List.pairwise_map.mp hh
  rw [canonicalWritten]
  exact List.pairwise_map.mpr (hpw.filter _)

theorem canonicalWritten_decomp (res : List ProcessedFrame) :
    canonicalWritten res =
      (res.takeWhile (fun pf => pf.included)).map entryOf ++
        canonicalWritten (res.drop (firstNI res)) := by
  have hsplit := List.takeWhile_append_dropWhile (fun pf => pf.included) res
  have htw : canonicalWritten (res.takeWhile (fun pf => pf.included)) =
      (res.takeWhile (fun pf => pf.included)).map entryOf := by
    rw [canonicalWritten, List.filter_eq_self.mpr
      (fun pf hpf => List.mem_takeWhile_imp hpf)]
  rw [firstNI, drop_takeWhile_len]
  calc canonicalWritten res
      = canonicalWritten (res.takeWhile (fun pf => pf.included) ++
          res.dropWhile (fun pf => pf.included)) := by rw [hsplit]
    _ = _ := by rw [canonicalWritten_append, htw]

end Xperf

namespace Xperf

theorem inv_dropmap {res : List ProcessedFrame}
    (hidx : res.map (fun pf => pf.frameIndex) = List.range' 0 res.length) :
    (res.drop (firstNI res)).map (fun pf => pf.frameIndex) =
      List.range' (firstNI res) ((res.drop (firstNI res)).length) := by
  rw [List.map_drop, hidx, range'_drop, Nat.zero_add, List.length_drop]

theorem inv_buffer_keys_gt {res : List ProcessedFrame} {st : RunState}
    (hidx : res.map (fun pf => pf.frameIndex) = List.range' 0 res.length)
    (hinv : Inv res st) : ∀ p ∈ st.buffer, st.nextToWrite < p.1 := by
  intro p hp
  rw [hinv.buffer] at hp
  rw [hinv.next]
  rcases Nat.lt_or_ge (firstNI res) res.length with hlt | hge
  · have hdw : res.drop (firstNI res) = res.dropWhile (fun pf => pf.included) :=
      drop_takeWhile_len _ res
    obtain ⟨pfE, restE, hdweq⟩ : ∃ pfE restE,
        res.dropWhile (fun pf => pf.included) = pfE :: restE := by
      match hh : res.dropWhile (fun pf => pf.included) with
      | [] =>
        exfalso
        have hcl := congrArg List.length hdw
        rw [hh, List.length_drop, List.length_nil, firstNI] at hcl
        rw [firstNI] at hlt
        omega
      | pfE :: restE => exact ⟨pfE, restE, hh⟩
    have hpfE : pfE.included = false := dropWhile_head_exc _ res pfE restE hdweq
    have hrestE : restE = res.drop (firstNI res + 1) := by
      have hdd : res.drop (firstNI res + 1) = (res.drop (firstNI res)).drop 1 := by
        rw [List.drop_drop, Nat.add_comm]
      rw [hdd, hdw, hdweq]
      rfl
    rw [hdw, hdweq, canonicalWritten_cons_exc _ _ hpfE] at hp
    have hmap : restE.map (fun pf => pf.frameIndex) =
        List.range' (firstNI res + 1) restE.length := by
      rw [hrestE, List.map_drop, hidx, range'_drop, Nat.zero_add, List.length_drop]
    have hge2 := canonicalWritten_keys_ge hmap p hp
    omega
  · have heq : firstNI res = res.length := by
      have := firstNI_le_length res
      omega
    rw [heq, List.drop_length] at hp
    simp [canonicalWritten] at hp

theorem finalFlush_written {res : List ProcessedFrame} {st : RunState}
    (hidx : res.map (fun pf => pf.frameIndex) = List.range' 0 res.length)
    (hinv : Inv res st) : (finalFlush st).written = canonicalWritten res := by
  have hkeys := inv_buffer_keys_gt hidx hinv
  have hpw : List.Pairwise (fun p q : BufEntry => p.1 < q.1) st.buffer := by
    rw [hinv.buffer]
    exact canonicalWritten_keys_pairwise (inv_dropmap hidx)
  have hfilter : (st.buffer.map (fun p => p.1)).filter
        (fun i => decide (st.nextToWrite ≤ i)) = st.buffer.map (fun p => p.1) := by
    rw [List.filter_eq_self]
    intro k hk
    obtain ⟨p, hp, hpk⟩ := List.mem_map.mp hk
    rw [← hpk]
    exact decide_eq_true (Nat.le_of_lt (hkeys p hp))
  have hkeypw : List.Pairwise (fun a b : Nat => a ≤ b) (st.buffer.map (fun p => p.1)) :=
    List.pairwise_map.mpr (hpw.imp (fun h => Nat.le_of_lt h))
  have hsorted := pySorted_id (st.buffer.map (fun p => p.1)) hkeypw
  have hrec := buf_recover st.buffer hpw
  show st.written ++ _ = _
  rw [hfilter, hsorted, hrec, hinv.written, hinv.buffer, ← canonicalWritten_decomp]

theorem finalFlush_next (st : RunState) : (finalFlush st).nextToWrite = st.nextToWrite := rfl

theorem finalFlush_buffer (st : RunState) : (finalFlush st).buffer = st.buffer := rfl

theorem finalFlush_frameCount (st : RunState) :
    (finalFlush st).frameCount = st.frameCount := rfl

theorem finalFlush_totalNodes (st : RunState) :
    (finalFlush st).totalNodes = st.totalNodes := rfl

theorem finalFlush_filteredNodes (st : RunState) :
    (finalFlush st).filteredNodes = st.filteredNodes := rfl

theorem finalFlush_filteredFrames (st : RunState) :
    (finalFlush st).filteredFrames = st.filteredFrames := rfl

/-- The full characterization of a writing-mode run of
`process_csv_multithreaded`, for any batch size ≥ 1 and any per-batch
completion order: the written sequence is exactly the included frames in input
order; the expected index ends at the first excluded frame; the buffer still
holds the included frames past it; the tracker saw every frame. -/
theorem processCsvRun_spec (tp : String → Int → Nat → String) (pN : TreeNode → Bool)
    (pF : TreeNode → Nat → Bool) (b : Nat) (mf : Option Nat) (rows : List Row)
    (sched : Nat → List ProcessedFrame → List ProcessedFrame)
    (hb : 1 ≤ b) (hs : ∀ j l, (sched j l).Perm l) :
    (processCsvRun tp pN pF b mf rows sched).written =
        canonicalWritten (resultsOf tp pN pF mf rows) ∧
      (processCsvRun tp pN pF b mf rows sched).nextToWrite =
        firstNI (resultsOf tp pN pF mf rows) ∧
      (processCsvRun tp pN pF b mf rows sched).buffer =
        canonicalWritten ((resultsOf tp pN pF mf rows).drop
          (firstNI (resultsOf tp pN pF mf rows))) ∧
      (processCsvRun tp pN pF b mf rows sched).frameCount =
        (resultsOf tp pN pF mf rows).length ∧
      (processCsvRun tp pN pF b mf rows sched).totalNodes =
        ((resultsOf tp pN pF mf rows).map (fun pf => pf.originalNodes)).sum ∧
      (processCsvRun tp pN pF b mf rows sched).filteredNodes =
        ((resultsOf tp pN pF mf rows).map (fun pf => pf.filteredNodes)).sum ∧
      (processCsvRun tp pN pF b mf rows sched).filteredFrames =
        ((resultsOf tp pN pF mf rows).filter (fun pf => !pf.included)).length := by
  by_cases hempty : (splitFrames mf rows).isEmpty = true
  · have hnil : splitFrames mf rows = [] := List.isEmpty_iff.mp hempty
    have hres : resultsOf tp pN pF mf rows = [] := by rw [resultsOf, hnil]; rfl
    rw [processCsvRun]
    show (if (splitFrames mf rows).isEmpty = true then initState else _).written = _ ∧ _
    rw [hres, if_pos hempty]
    refine ⟨rfl, rfl, ?_, rfl, rfl, rfl, rfl⟩
    rw [firstNI]
    rfl
  · have hinv0 := runBatchesGo_inv b hb sched hs (resultsOf tp pN pF mf rows).length
      (resultsOf tp pN pF mf rows) [] 0 initState (Nat.le_refl _)
      (by rw [List.nil_append]; exact resultsOf_idx tp pN pF mf rows) inv_init
    rw [List.nil_append] at hinv0
    have hrun : processCsvRun tp pN pF b mf rows sched =
        finalFlush (runBatchesGo sched 0
          (chunks b (resultsOf tp pN pF mf rows)) initState) := by
      rw [processCsvRun]
      show (if (splitFrames mf rows).isEmpty = true then initState else _) = _
      rw [if_neg hempty]
      rfl
    rw [hrun]
    exact ⟨finalFlush_written (resultsOf_idx tp pN pF mf rows) hinv0,
      (finalFlush_next _).trans hinv0.next,
      (finalFlush_buffer _).trans hinv0.buffer,
      (finalFlush_frameCount _).trans hinv0.frameCount,
      (finalFlush_totalNodes _).trans hinv0.totalNodes,
      (finalFlush_filteredNodes _).trans hinv0.filteredNodes,
      (finalFlush_filteredFrames _).trans hinv0.filteredFrames⟩

end Xperf

/-! ### Additional helper lemmas for the claims -/

namespace Xperf

theorem dataOf_withChildren (t : TreeNode) (cs : List TreeNode) :
    (t.withChildren cs).dataOf = t.dataOf := by
  match t with
  | .mk a b c d e f cs2 => rfl

theorem children_withChildren (t : TreeNode) (cs : List TreeNode) :
    (t.withChildren cs).children = cs := by
  match t with
  | .mk a b c d e f cs2 => rfl

theorem insertSorted_length_le (k : Nat) (v : Option TreeNode) :
    ∀ buf : List BufEntry, (insertSorted k v buf).length ≤ buf.length + 1 := by
  intro buf
  induction buf with
  | nil => exact Nat.le_refl 1
  | cons e rest ih =>
    match e with
    | (k2, v2) =>
      rw [insertSorted]
      by_cases h1 : k < k2
      · rw [if_pos h1]; simp
      · rw [if_neg h1]
        by_cases h2 : k = k2
        · rw [if_pos h2]; simp
        · rw [if_neg h2]
          simp only [List.length_cons]
          omega

theorem trackCollect_buffer_le :
    ∀ (l : List ProcessedFrame) (st : RunState),
      ((l.foldl trackCollect st).buffer).length ≤ st.buffer.length + l.length := by
  intro l
  induction l with
  | nil => intro st; simp
  | cons pf rest ih =>
    intro st
    rw [List.foldl_cons]
    have h1 := ih (trackCollect st pf)
    have h2 : (trackCollect st pf).buffer.length ≤ st.buffer.length + 1 := by
      show (if pf.included then insertSorted pf.frameIndex pf.frameDict st.buffer
        else st.buffer).length ≤ _
      by_cases hinc : pf.included = true
      · rw [if_pos hinc]
        exact insertSorted_length_le _ _ _
      · rw [if_neg hinc]
        omega
    rw [List.length_cons]
    omega

theorem canonicalWritten_pairwise_of_run (tp : String → Int → Nat → String)
    (pN : TreeNode → Bool) (pF : TreeNode → Nat → Bool) (mf : Option Nat)
    (rows : List Row) :
    List.Pairwise (fun p q : BufEntry => p.1 < q.1)
      (canonicalWritten (resultsOf tp pN pF mf rows)) :=
  canonicalWritten_keys_pairwise (resultsOf_idx tp pN pF mf rows)

end Xperf

/-! ### The claims -/

namespace Xperf

/-- C1: for every input trace and every configuration with batch_size ≥ 1 (the
worker count does not appear: any completion order of each batch's futures is
allowed, which covers every worker count ≥ 1), the frames written by
`process_csv_multithreaded` are exactly the included frames in input order —
their frame indices are strictly increasing and the sequence is the input
sequence restricted to included frames, independent of completion order. -/
theorem c1_output_ordering (tp : String → Int → Nat → String) (pN : TreeNode → Bool)
    (pF : TreeNode → Nat → Bool) (b : Nat) (mf : Option Nat) (rows : List Row)
    (sched : Nat → List ProcessedFrame → List ProcessedFrame)
    (hb : 1 ≤ b) (hs : ∀ j l, (sched j l).Perm l) :
    (processCsvRun tp pN pF b mf rows sched).written =
        canonicalWritten (resultsOf tp pN pF mf rows) ∧
      List.Pairwise (fun p q : BufEntry => p.1 < q.1)
        ((processCsvRun tp pN pF b mf rows sched).written) := by
  have h := (processCsvRun_spec tp pN pF b mf rows sched hb hs).1
  refine ⟨h, ?_⟩
  rw [h]
  exact canonicalWritten_pairwise_of_run tp pN pF mf rows

/-- Witness for C1 at a concrete two-frame trace with batch size 1 and the
identity completion order. -/
theorem c1_output_ordering_witness :
    (processCsvRun (fun s _ _ => s) (fun _ => true) (fun _ _ => true) 1 none
          ([⟨0, some ⟨1, ("a"), 0, 16, 16⟩⟩, ⟨0, some ⟨2, ("b"), 16, 32, 16⟩⟩] : List Row)
          (fun _ l => l)).written =
        canonicalWritten (resultsOf (fun s _ _ => s) (fun _ => true) (fun _ _ => true)
          none ([⟨0, some ⟨1, ("a"), 0, 16, 16⟩⟩, ⟨0, some ⟨2, ("b"), 16, 32, 16⟩⟩] : List Row)) ∧
      List.Pairwise (fun p q : BufEntry => p.1 < q.1)
        ((processCsvRun (fun s _ _ => s) (fun _ => true) (fun _ _ => true) 1 none
          ([⟨0, some ⟨1, ("a"), 0, 16, 16⟩⟩, ⟨0, some ⟨2, ("b"), 16, 32, 16⟩⟩] : List Row)
          (fun _ l => l)).written) :=
  c1_output_ordering (fun s _ _ => s) (fun _ => true) (fun _ _ => true) 1 none
    ([⟨0, some ⟨1, ("a"), 0, 16, 16⟩⟩, ⟨0, some ⟨2, ("b"), 16, 32, 16⟩⟩] : List Row)
    (fun _ l => l) (Nat.le_refl 1) (fun _ l => List.Perm.refl l)

end Xperf

namespace Xperf

/-- C9: two runs of the pipeline with identical input rows and identical
configuration produce byte-identical JSON output: the bytes depend only on the
rows and the configuration, not on the completion order of the worker futures
(the only influence thread scheduling has on the writing path). -/
theorem c9_byte_determinism (tp : String → Int → Nat → String) (pN : TreeNode → Bool)
    (pF : TreeNode → Nat → Bool) (b : Nat) (mf : Option Nat) (rows : List Row)
    (sched1 sched2 : Nat → List ProcessedFrame → List ProcessedFrame)
    (hb : 1 ≤ b) (hs1 : ∀ j l, (sched1 j l).Perm l)
    (hs2 : ∀ j l, (sched2 j l).Perm l) :
    processCsvBytes tp pN pF b mf rows sched1 =
      processCsvBytes tp pN pF b mf rows sched2 := by
  rw [processCsvBytes, processCsvBytes]
  by_cases hempty : (splitFrames mf rows).isEmpty = true
  · rw [if_pos hempty, if_pos hempty]
  · rw [if_neg hempty, if_neg hempty,
      (processCsvRun_spec tp pN pF b mf rows sched1 hb hs1).1,
      (processCsvRun_spec tp pN pF b mf rows sched2 hb hs2).1]

/-- Witness for C9 at a concrete two-frame trace, with the identity completion
order against the reversed completion order. -/
theorem c9_byte_determinism_witness :
    processCsvBytes (fun s _ _ => s) (fun _ => true) (fun _ _ => true) 1 none
        ([⟨0, some ⟨1, ("a"), 0, 16, 16⟩⟩, ⟨0, some ⟨2, ("b"), 16, 32, 16⟩⟩] : List Row)
        (fun _ l => l) =
      processCsvBytes (fun s _ _ => s) (fun _ => true) (fun _ _ => true) 1 none
        ([⟨0, some ⟨1, ("a"), 0, 16, 16⟩⟩, ⟨0, some ⟨2, ("b"), 16, 32, 16⟩⟩] : List Row)
        (fun _ l => l.reverse) :=
  c9_byte_determinism (fun s _ _ => s) (fun _ => true) (fun _ _ => true) 1 none
    ([⟨0, some ⟨1, ("a"), 0, 16, 16⟩⟩, ⟨0, some ⟨2, ("b"), 16, 32, 16⟩⟩] : List Row)
    (fun _ l => l) (fun _ l => l.reverse) (Nat.le_refl 1)
    (fun _ l => List.Perm.refl l) (fun _ l => List.reverse_perm l)

/-- C3 counterexample: a trace whose frame 0 raises in the worker (unparseable
fields) and whose frame 1 is valid.  The exception is caught and frame 0 is
excluded, but after the whole run `next_frame_to_write` is still 0 — the
scheduler never advanced the expected index past the failed frame, contrary to
the claim. -/
theorem c3_advance_cex :
    (processSingleFrame (fun s _ _ => s) (fun _ => true) (fun _ _ => true)
        ⟨0, [⟨0, none⟩]⟩).included = false ∧
      (processCsvRun (fun s _ _ => s) (fun _ => true) (fun _ _ => true) 1 none
        ([⟨0, none⟩, ⟨0, some ⟨1, ("a"), 0, 16, 16⟩⟩] : List Row)
        (fun _ l => l)).nextToWrite = 0 := by
  exact ⟨rfl, rfl⟩

/-- C3 (amended): a worker exception is caught and the frame is treated as
excluded (the zero-count result), and the run still completes emitting every
included frame in index order, so the run never deadlocks; but the expected
index is NOT advanced past the failed frame — it stays at the first excluded
index, the drain loop stalls there, and the frames past it are emitted only by
the final catch-up pass. -/
theorem c3_amended_exception_flow (tp : String → Int → Nat → String)
    (pN : TreeNode → Bool) (pF : TreeNode → Nat → Bool) (b : Nat) (mf : Option Nat)
    (rows : List Row) (sched : Nat → List ProcessedFrame → List ProcessedFrame)
    (hb : 1 ≤ b) (hs : ∀ j l, (sched j l).Perm l) :
    (∀ fd : FrameData, (∃ r ∈ fd.rows, r.fields = none) →
        processSingleFrame tp pN pF fd = ⟨fd.frameIndex, none, 0, 0, false⟩) ∧
      (processCsvRun tp pN pF b mf rows sched).written =
        canonicalWritten (resultsOf tp pN pF mf rows) ∧
      (processCsvRun tp pN pF b mf rows sched).nextToWrite =
        firstNI (resultsOf tp pN pF mf rows) := by
  have h := processCsvRun_spec tp pN pF b mf rows sched hb hs
  exact ⟨fun fd hfd => processSingleFrame_exception tp pN pF fd hfd, h.1, h.2.1⟩

/-- Witness for the amended C3 at the counterexample trace. -/
theorem c3_amended_exception_flow_witness :
    (∀ fd : FrameData, (∃ r ∈ fd.rows, r.fields = none) →
        processSingleFrame (fun s _ _ => s) (fun _ => true) (fun _ _ => true) fd =
          ⟨fd.frameIndex, none, 0, 0, false⟩) ∧
      (processCsvRun (fun s _ _ => s) (fun _ => true) (fun _ _ => true) 1 none
          ([⟨0, none⟩, ⟨0, some ⟨1, ("a"), 0, 16, 16⟩⟩] : List Row)
          (fun _ l => l)).written =
        canonicalWritten (resultsOf (fun s _ _ => s) (fun _ => true) (fun _ _ => true)
          none ([⟨0, none⟩, ⟨0, some ⟨1, ("a"), 0, 16, 16⟩⟩] : List Row)) ∧
      (processCsvRun (fun s _ _ => s) (fun _ => true) (fun _ _ => true) 1 none
          ([⟨0, none⟩, ⟨0, some ⟨1, ("a"), 0, 16, 16⟩⟩] : List Row)
          (fun _ l => l)).nextToWrite =
        firstNI (resultsOf (fun s _ _ => s) (fun _ => true) (fun _ _ => true)
          none ([⟨0, none⟩, ⟨0, some ⟨1, ("a"), 0, 16, 16⟩⟩] : List Row)) :=
  c3_amended_exception_flow (fun s _ _ => s) (fun _ => true) (fun _ _ => true) 1 none
    ([⟨0, none⟩, ⟨0, some ⟨1, ("a"), 0, 16, 16⟩⟩] : List Row)
    (fun _ l => l) (Nat.le_refl 1) (fun _ l => List.Perm.refl l)

end Xperf

namespace Xperf

/-- C4 counterexample: three valid frames, a frame filter that excludes frame 0,
batch size 1.  At the end of the run (a point during `process_csv_multithreaded`,
before the final pass and the return) the pending map holds both remaining
frames: 2 entries, exceeding batch_size = 1, and they were never removed. -/
theorem c4_bound_cex :
    (processCsvRun (fun s _ _ => s) (fun _ => true) (fun _ i => decide (0 < i)) 1 none
        ([⟨0, some ⟨1, ("a"), 0, 16, 16⟩⟩, ⟨0, some ⟨2, ("b"), 16, 32, 16⟩⟩,
          ⟨0, some ⟨3, ("c"), 32, 48, 16⟩⟩] : List Row)
        (fun _ l => l)).buffer.length = 2 ∧
      1 < 2 := by
  exact ⟨rfl, by omega⟩

/-- C4 (amended): the collection loop adds at most one entry per completed
frame, so the map never exceeds the batch's size beyond what it already held;
when every frame is included, each batch's flush drains the map completely (it
is empty after the final drain, so entries are removed once written); but when
a frame is excluded, the included frames past the first excluded index are
never removed and the map can exceed batch_size. -/
theorem c4_amended_buffer_bound (tp : String → Int → Nat → String)
    (pN : TreeNode → Bool) (pF : TreeNode → Nat → Bool) (b : Nat) (mf : Option Nat)
    (rows : List Row) (sched : Nat → List ProcessedFrame → List ProcessedFrame)
    (hb : 1 ≤ b) (hs : ∀ j l, (sched j l).Perm l)
    (hall : ∀ fd ∈ splitFrames mf rows,
      (processSingleFrame tp pN pF fd).included = true) :
    (processCsvRun tp pN pF b mf rows sched).buffer = [] ∧
      (∀ (st : RunState) (l : List ProcessedFrame),
        ((l.foldl trackCollect st).buffer).length ≤ st.buffer.length + l.length) := by
  refine ⟨?_, fun st l => trackCollect_buffer_le l st⟩
  have h := (processCsvRun_spec tp pN pF b mf rows sched hb hs).2.2.1
  have hallres : ∀ pf ∈ resultsOf tp pN pF mf rows, pf.included = true := by
    intro pf hpf
    rw [resultsOf] at hpf
    obtain ⟨fd, hfd, hpfd⟩ := List.mem_map.mp hpf
    rw [← hpfd]
    exact hall fd hfd
  have hfni : firstNI (resultsOf tp pN pF mf rows) =
      (resultsOf tp pN pF mf rows).length := by
    rw [firstNI, takeWhile_all_eq _ _ hallres]
  rw [h, hfni, List.drop_length]
  rfl

/-- Witness for the amended C4 at a concrete all-included two-frame trace. -/
theorem c4_amended_buffer_bound_witness :
    (processCsvRun (fun s _ _ => s) (fun _ => true) (fun _ _ => true) 1 none
        ([⟨0, some ⟨1, ("a"), 0, 16, 16⟩⟩, ⟨0, some ⟨2, ("b"), 16, 32, 16⟩⟩] : List Row)
        (fun _ l => l)).buffer = [] ∧
      (∀ (st : RunState) (l : List ProcessedFrame),
        ((l.foldl trackCollect st).buffer).length ≤ st.buffer.length + l.length) :=
  c4_amended_buffer_bound (fun s _ _ => s) (fun _ => true) (fun _ _ => true) 1 none
    ([⟨0, some ⟨1, ("a"), 0, 16, 16⟩⟩, ⟨0, some ⟨2, ("b"), 16, 32, 16⟩⟩] : List Row)
    (fun _ l => l) (Nat.le_refl 1) (fun _ l => List.Perm.refl l)
    (by intro fd hfd
        fin_cases hfd <;> rfl)

end Xperf

namespace Xperf

/-- C2 counterexample: a one-row trace whose single row has depth 1.  The
segmenter emits it as a rootless frame group, the worker returns the
zero-count excluded result, and the tracker sums to 0 although one row was
consumed — included_nodes + filtered_nodes = 0 ≠ 1 = total parsed rows. -/
theorem c2_totals_cex :
    (getSummary (processCsvRun (fun s _ _ => s) (fun _ => true) (fun _ _ => true) 1
          none ([⟨1, some ⟨1, ("a"), 0, 5, 5⟩⟩] : List Row)
          (fun _ l => l))).includedNodes +
        (getSummary (processCsvRun (fun s _ _ => s) (fun _ => true) (fun _ _ => true) 1
          none ([⟨1, some ⟨1, ("a"), 0, 5, 5⟩⟩] : List Row)
          (fun _ l => l))).filteredNodes = 0 ∧
      ([⟨1, some ⟨1, ("a"), 0, 5, 5⟩⟩] : List Row).length = 1 := by
  exact ⟨rfl, rfl⟩

/-- C2 (amended): for traces whose first row (if any) has depth 0, whose rows
all have parseable fields, with the node filter that keeps every node, no frame
cap, and batch_size ≥ 1: the tracker totals satisfy
included_nodes + filtered_nodes = total parsed rows, for any frame filter and
any completion order. -/
theorem c2_amended_node_totals (tp : String → Int → Nat → String)
    (pF : TreeNode → Nat → Bool) (b : Nat) (rows : List Row)
    (sched : Nat → List ProcessedFrame → List ProcessedFrame)
    (hb : 1 ≤ b) (hs : ∀ j l, (sched j l).Perm l)
    (hhead : rows = [] ∨ ∃ r0 t, rows = r0 :: t ∧ r0.depth = 0)
    (hfields : ∀ r ∈ rows, r.fields.isSome = true) :
    (getSummary (processCsvRun tp (fun _ => true) pF b none rows sched)).includedNodes +
      (getSummary (processCsvRun tp (fun _ => true) pF b none rows sched)).filteredNodes =
      rows.length := by
  obtain ⟨_, _, _, _, hT, hF, _⟩ :=
    processCsvRun_spec tp (fun _ => true) pF b none rows sched hb hs
  have horig : ((resultsOf tp (fun _ => true) pF none rows).map
      (fun pf => pf.originalNodes)).sum = rows.length := by
    rw [resultsOf, List.map_map]
    have hco : (splitFrames none rows).map
        ((fun pf => pf.originalNodes) ∘ processSingleFrame tp (fun _ => true) pF) =
        (splitFrames none rows).map (fun fd => fd.rows.length) := by
      refine List.map_congr_left ?_
      intro fd hfd
      have hgood : GoodGroup fd.rows :=
        splitGo_groups rows [] 0 (Or.inl ⟨rfl, hhead⟩) fd hfd
      obtain ⟨r0, t, hrows, hd0, ht⟩ := hgood
      have hsub := splitGo_rows_sub rows [] 0 fd hfd
      have hf0 : r0.fields.isSome = true := by
        apply hfields
        rcases hsub r0 (by rw [hrows]; simp) with h | h
        · cases h
        · exact h
      have hrest : ∀ r ∈ t, r.depth ≠ 0 ∧ r.fields.isSome = true := by
        intro r hr
        refine ⟨ht r hr, ?_⟩
        apply hfields
        rcases hsub r (by rw [hrows]; simp [hr]) with h | h
        · cases h
        · exact h
      exact processSingleFrame_counts tp pF fd r0 t hrows hd0 hf0 hrest
    rw [hco]
    have hsum := splitGo_sum_len rows [] 0
    rw [List.length_nil] at hsum
    rw [splitFrames, hsum]
    omega
  have hle : ((resultsOf tp (fun _ => true) pF none rows).map
        (fun pf => pf.filteredNodes)).sum ≤
      ((resultsOf tp (fun _ => true) pF none rows).map
        (fun pf => pf.originalNodes)).sum := by
    refine List.sum_le_sum ?_
    intro pf hpf
    rw [resultsOf] at hpf
    obtain ⟨fd, hfd, hpfd⟩ := List.mem_map.mp hpf
    rw [← hpfd]
    exact processSingleFrame_filtered_le tp (fun _ => true) pF fd
  show (processCsvRun tp (fun _ => true) pF b none rows sched).totalNodes -
      (processCsvRun tp (fun _ => true) pF b none rows sched).filteredNodes +
      (processCsvRun tp (fun _ => true) pF b none rows sched).filteredNodes =
      rows.length
  rw [hT, hF]
  omega

/-- Witness for the amended C2 at a concrete two-frame, three-row trace. -/
theorem c2_amended_node_totals_witness :
    (getSummary (processCsvRun (fun s _ _ => s) (fun _ => true) (fun _ _ => true) 1 none
        ([⟨0, some ⟨1, ("a"), 0, 16, 16⟩⟩, ⟨1, some ⟨2, ("c"), 0, 5, 5⟩⟩,
          ⟨0, some ⟨3, ("b"), 16, 32, 16⟩⟩] : List Row)
        (fun _ l => l))).includedNodes +
      (getSummary (processCsvRun (fun s _ _ => s) (fun _ => true) (fun _ _ => true) 1 none
        ([⟨0, some ⟨1, ("a"), 0, 16, 16⟩⟩, ⟨1, some ⟨2, ("c"), 0, 5, 5⟩⟩,
          ⟨0, some ⟨3, ("b"), 16, 32, 16⟩⟩] : List Row)
        (fun _ l => l))).filteredNodes =
      ([⟨0, some ⟨1, ("a"), 0, 16, 16⟩⟩, ⟨1, some ⟨2, ("c"), 0, 5, 5⟩⟩,
        ⟨0, some ⟨3, ("b"), 16, 32, 16⟩⟩] : List Row).length :=
  c2_amended_node_totals (fun s _ _ => s) (fun _ _ => true) 1
    ([⟨0, some ⟨1, ("a"), 0, 16, 16⟩⟩, ⟨1, some ⟨2, ("c"), 0, 5, 5⟩⟩,
      ⟨0, some ⟨3, ("b"), 16, 32, 16⟩⟩] : List Row)
    (fun _ l => l) (Nat.le_refl 1) (fun _ l => List.Perm.refl l)
    (Or.inr ⟨⟨0, some ⟨1, ("a"), 0, 16, 16⟩⟩,
      [⟨1, some ⟨2, ("c"), 0, 5, 5⟩⟩, ⟨0, some ⟨3, ("b"), 16, 32, 16⟩⟩], rfl, rfl⟩)
    (by intro r hr; fin_cases hr <;> rfl)

end Xperf

namespace UT

/-- C5 counterexample: parent interval `[0, 10]` and a candidate starting at 5
and ending exactly at 10.  Both of its endpoints fall within the parent's
closed interval, yet the strict `child_end < father_end` test at
BuildTree.py line 135 rejects it, refuting the claimed if-and-only-if with the
closed interval. -/
theorem c5_containment_cex :
    (0 : Int) ≤ (⟨("c"), 5, 5, 10, 1⟩ : UEvent).start ∧
      (⟨("c"), 5, 5, 10, 1⟩ : UEvent).start ≤ 10 ∧
      (0 : Int) ≤ (⟨("c"), 5, 5, 10, 1⟩ : UEvent).stop ∧
      (⟨("c"), 5, 5, 10, 1⟩ : UEvent).stop ≤ 10 ∧
      attachedChildren 0 10 [⟨("c"), 5, 5, 10, 1⟩] = [] := by
  exact ⟨by decide, by decide, by decide, by decide, rfl⟩

/-- C5 (amended): for a parent spanning `[fs, fe]` and a start-time-sorted next
level, a candidate is attached iff it lies in the level list, its start falls
within `[fs, fe]`, and its end lies STRICTLY below `fe`.  A candidate whose end
falls outside the parent's interval is excluded rather than attached, but so is
one ending exactly at the parent's end. -/
theorem c5_strict_end_attachment (fs fe : Int) (l : List UEvent) (e : UEvent)
    (hle : fs ≤ fe)
    (hsort : List.Pairwise (fun a b => a.start ≤ b.start) l) :
    (e ∈ attachedChildren fs fe l ↔
      e ∈ l ∧ fs ≤ e.start ∧ e.start ≤ fe ∧ e.stop < fe) :=
  attachedChildren_mem fs fe l e hle hsort

/-- Witness for the amended C5 at a concrete sorted level under parent
`[0, 10]`. -/
theorem c5_strict_end_attachment_witness :
    ((⟨("a"), 3, 1, 4, 1⟩ : UEvent) ∈
        attachedChildren 0 10 [⟨("a"), 3, 1, 4, 1⟩, ⟨("c"), 5, 5, 10, 1⟩] ↔
      (⟨("a"), 3, 1, 4, 1⟩ : UEvent) ∈
          [(⟨("a"), 3, 1, 4, 1⟩ : UEvent), ⟨("c"), 5, 5, 10, 1⟩] ∧
        (0 : Int) ≤ (⟨("a"), 3, 1, 4, 1⟩ : UEvent).start ∧
        (⟨("a"), 3, 1, 4, 1⟩ : UEvent).start ≤ 10 ∧
        (⟨("a"), 3, 1, 4, 1⟩ : UEvent).stop < 10) :=
  c5_strict_end_attachment 0 10 [⟨("a"), 3, 1, 4, 1⟩, ⟨("c"), 5, 5, 10, 1⟩]
    ⟨("a"), 3, 1, 4, 1⟩ (by decide) (by decide)

end UT

namespace Xperf

/-- C6: a node failing inclusion is dropped together with its entire subtree
(the filter returns `None` for it and nothing below it is re-attached
anywhere), a retained node keeps exactly those children that independently pass
the filter, and the surviving node count equals the count of nodes reachable
from the root through all-included ancestors. -/
theorem c6_subtree_pruning (p : TreeNode → Bool) (t : TreeNode) :
    (p t = false → filterTreeNodes p t = none) ∧
      (p t = true → filterTreeNodes p t =
        some (t.withChildren (filterChildren p t.children))) ∧
      (∀ c cs, filterChildren p (c :: cs) =
        match filterTreeNodes p c with
        | some fc => fc :: filterChildren p cs
        | none => filterChildren p cs) ∧
      optCount (filterTreeNodes p t) = includedCount p t := by
  exact ⟨fun h => filterTreeNodes_of_false h, fun h => filterTreeNodes_of_true h,
    fun c cs => rfl, optCount_filter p t⟩

/-- C7 counterexample: on an empty frame row group the BuildTree.py builder
does not produce a defined empty result: `handle_single_frame` reads
`sorted_data[-1]` and raises `IndexError` (line 96), so the per-frame unit of
`run` errors instead of skipping cleanly. -/
theorem c7_empty_group_cex :
    UT.handleSingleFrame [] = .error () ∧ UT.runOne [] = .error () := by
  exact ⟨rfl, rfl⟩

/-- C7 (amended): the MultiThreadVersion worker does skip a rootless group
non-fatally with the excluded zero-count result; in BuildTree.py, `build_tree`
returns `None` only for the empty leveled dict and raises when the level-0
bucket holds no event, `handle_single_frame` raises on an empty group, and only
the per-frame exception handler of `run` keeps the remaining frames going. -/
theorem c7_amended_empty_handling (tp : String → Int → Nat → String)
    (pN : TreeNode → Bool) (pF : TreeNode → Nat → Bool) :
    (∀ fd : FrameData, (∀ r ∈ fd.rows, r.depth ≠ 0) →
        processSingleFrame tp pN pF fd = ⟨fd.frameIndex, none, 0, 0, false⟩) ∧
      UT.buildTree [] = .ok none ∧
      (∀ rest, UT.buildTree ([] :: rest) = .error ()) ∧
      (∀ f rest, UT.runAll (f :: rest) = UT.runOne f :: UT.runAll rest) := by
  exact ⟨fun fd h => processSingleFrame_rootless tp pN pF fd h, rfl,
    fun rest => rfl, fun f rest => rfl⟩

/-- C8 counterexample: the pipeline's own name processor
(MultiThreadVersion.py lines 98-102) has no empty-name sentinel: the empty
input maps to the empty string, and the non-empty input `STAT_` is cleaned down
to the empty string as well. -/
theorem c8_sentinel_cex :
    processTimerNameMT ("") 0 0 = ("") ∧
      processTimerNameMT ("STAT_") 0 0 = ("") := by
  exact ⟨rfl, rfl⟩

/-- C8 (amended): both processors are total, pure functions of their string
argument.  The Processor-package version returns the sentinel `FrameKento` on
empty input and never returns the empty string; the MultiThreadVersion copy
applies the cleanup patterns without a sentinel and maps both the empty string
and `STAT_` to the empty string. -/
theorem c8_amended_sentinel (tid : Int) (d : Nat) :
    (∀ s : String, 0 < (processTimerName s tid d).length) ∧
      processTimerName ("") tid d = ("FrameKento") ∧
      processTimerNameMT ("") tid d = ("") ∧
      processTimerNameMT ("STAT_") tid d = ("") := by
  refine ⟨?_, rfl, rfl, rfl⟩
  intro s
  rw [processTimerName]
  by_cases hs : s = ("")
  · rw [if_pos hs]; decide
  · rw [if_neg hs]
    rcases s with ⟨l⟩
    cases l with
    | nil => exact absurd rfl hs
    | cons c cs => exact Nat.succ_pos cs.length

/-- Witness for the amended C8 at timer id 7, depth 3. -/
theorem c8_amended_sentinel_witness :
    (∀ s : String, 0 < (processTimerName s 7 3).length) ∧
      processTimerName ("") 7 3 = ("FrameKento") ∧
      processTimerNameMT ("") 7 3 = ("") ∧
      processTimerNameMT ("STAT_") 7 3 = ("") :=
  c8_amended_sentinel 7 3

/-- C10: with the default `process_node`, the tree `filter_tree_nodes` returns
is the argument object in its post-call mutated state, so counting the nodes
of the original frame root afterwards yields the filtered count; on a concrete
two-node frame whose child fails a min-duration node filter, the worker reports
original_count = 1 = filtered count although the frame parsed two rows. -/
theorem c10_inplace_filter_count (p : TreeNode → Bool) (t : TreeNode) :
    (∀ u, filterTreeNodes p t = some u → u = filterPost p t) ∧
      (filterPost (fun n => decide (1 ≤ n.duration))
          (.mk 0 ("a") 0 16 16 0 [.mk 1 ("b") 0 16 0 1 []])).countNodes = 1 ∧
      (TreeNode.mk 0 ("a") 0 16 16 0 [.mk 1 ("b") 0 16 0 1 []]).countNodes = 2 ∧
      (processSingleFrame (fun s _ _ => s) (fun n => decide (1 ≤ n.duration))
          (fun _ _ => true)
          ⟨0, [⟨0, some ⟨1, ("a"), 0, 16, 16⟩⟩,
            ⟨1, some ⟨2, ("b"), 0, 16, 0⟩⟩]⟩).originalNodes = 1 ∧
      (processSingleFrame (fun s _ _ => s) (fun n => decide (1 ≤ n.duration))
          (fun _ _ => true)
          ⟨0, [⟨0, some ⟨1, ("a"), 0, 16, 16⟩⟩,
            ⟨1, some ⟨2, ("b"), 0, 16, 0⟩⟩]⟩).filteredNodes = 1 ∧
      ([⟨0, some ⟨1, ("a"), 0, 16, 16⟩⟩,
        ⟨1, some ⟨2, ("b"), 0, 16, 0⟩⟩] : List Row).length = 2 := by
  exact ⟨fun u hu => filterTreeNodes_eq_filterPost hu, rfl, rfl, rfl, rfl, rfl⟩

end Xperf
